import Mathlib

/-!
Verification of the clipboard codec in `src/arrowcopypaste.py`.

Modelling conventions for the shallow embedding:
* Python `bytes` buffers are `List Nat` whose entries are bytes (< 256);
  Python `str` text is `List Nat` of character code points.
* Machine-integer operations are modelled arithmetically:
  `x & 0x7f = x % 128`, `x >> 7 = x / 128`, `x | 0x80 = x % 128 + 128`
  (for byte-sized operands), `(byte & 0x80) == 0` is `byte < 128` for
  `byte < 256`; `struct.pack` of `<B`/`<I`/`<d` writes the little-endian
  bytes of the value (floats are carried as their 64-bit IEEE patterns,
  which is exactly what `struct.pack('<d', ...)`/`unpack` transport).
* Every `raise ValueError` site of the decoders is tagged with a distinct
  `DecodeErr` constructor; `DecodeErr.pyMessage` recovers the message the
  Python exception actually carries (so the caller-observable value is
  `ValueError` plus `pyMessage`).
* `base64.a85encode`/`a85decode` (CPython `base64.py`, with default
  arguments: no adobe framing, no folding of spaces, no wrapping) are
  modelled byte-for-byte, including the `z` short form for all-zero
  groups, the `u`-padding trick of the decoder, and the overflow check.
-/

namespace ArrowCopyPaste

/-- One constructor per distinct `raise ValueError` situation in the
decoders.  `magicMismatch` is `raise ValueError('Invalid data')`;
`truncated` is the bare `raise ValueError()` in the closure `unpack` when
a read would run past the end of the buffer; `unknownBlockType` is the
bare `raise ValueError()` in the tempo block loop when the type byte is
neither 0 nor 1; `malformedText` covers the `ValueError`s raised inside
`base64.a85decode`, carrying that exception's message. -/
inductive DecodeErr where
  | magicMismatch
  | truncated
  | unknownBlockType
  | malformedText (msg : String)
  deriving DecidableEq, Repr

/-- The message carried by the Python `ValueError` corresponding to a
`DecodeErr` (`none` = the exception was raised with no arguments). -/
def DecodeErr.pyMessage : DecodeErr → Option String
  | .magicMismatch => some "Invalid data"
  | .truncated => none
  | .unknownBlockType => none
  | .malformedText m => some m

/-- Code points of a string literal (Python `str` as a list of code points). -/
def strCodes (s : String) : List Nat := s.toList.map Char.toNat

/-- `_TEMPO_MAGIC = 'ArrowVortex:tempo:'`. -/
def tempoMagic : List Nat := strCodes "ArrowVortex:tempo:"

/-- `_NOTES_MAGIC = 'ArrowVortex:notes:'`. -/
def notesMagic : List Nat := strCodes "ArrowVortex:notes:"

/-! ## Variable-length integer codec (`pack_vlc` / `unpack_vlc`) -/

/-- `pack_vlc` from `notes_to_clipboard_data`: emit `value & 0x7f`
(= `v % 128`), shift by 7 bits (`v / 128`); if the shifted value is
nonzero, set the continuation bit (`| 0x80`, = `+ 128`) and continue. -/
def pack_vlc (v : Nat) : List Nat :=
  if h : v / 128 = 0 then [v % 128]
  else (v % 128 + 128) :: pack_vlc (v / 128)
  termination_by v
  decreasing_by omega

/-- `unpack_vlc` from `clipboard_data_to_notes`, phrased recursively: read
bytes while the continuation bit (`byte & 0x80`) is set, accumulating
`byte & 0x7f` groups little-endian; a read past the end of the buffer is
the bare `ValueError()` of `unpack`, i.e. `truncated`.  Returns the value
and the unconsumed remainder of the buffer. -/
def unpack_vlc : List Nat → Except DecodeErr (Nat × List Nat)
  | [] => .error .truncated
  | b :: rest =>
    if b < 128 then .ok (b % 128, rest)
    else
      match unpack_vlc rest with
      | .ok (v, r) => .ok (b % 128 + 128 * v, r)
      | .error e => .error e

/-! ## ASCII85 (CPython `base64.a85encode` / `a85decode`, default flags) -/

/-- The five base-85 digit characters of a 32-bit group (code points,
offset 33 = `'!'`).  `85^2 = 7225`, `85^3 = 614125`, `85^4 = 52200625`. -/
def encodeWord (w : Nat) : List Nat :=
  [33 + w / 52200625, 33 + w / 614125 % 85, 33 + w / 7225 % 85,
   33 + w / 85 % 85, 33 + w % 85]

/-- The characters of one full 4-byte group: `'z'` (code 122) when the
group is all zero, else its five base-85 digits. -/
def groupChars (w : Nat) : List Nat :=
  if w = 0 then [122] else encodeWord w

/-- `a85encode`: big-endian 4-byte groups, each emitted as 5 base-85
digits, an all-zero group as `'z'` (code 122); a final partial group of
`n` bytes is zero-padded, encoded (the `z` short form is expanded back to
`'!!!!!'` first, which is exactly `encodeWord 0`), and truncated to
`n + 1` characters. -/
def a85encode : List Nat → List Nat
  | b0 :: b1 :: b2 :: b3 :: rest =>
    groupChars (((b0 * 256 + b1) * 256 + b2) * 256 + b3) ++ a85encode rest
  | [] => []
  | [b0] => List.take 2 (encodeWord (b0 * 16777216))
  | [b0, b1] => List.take 3 (encodeWord (b0 * 16777216 + b1 * 65536))
  | [b0, b1, b2] =>
    List.take 4 (encodeWord (b0 * 16777216 + b1 * 65536 + b2 * 256))

/-- `struct.Struct('!I').pack`: the four big-endian bytes of a 32-bit
value. -/
def packBE4 (acc : Nat) : List Nat :=
  [acc / 16777216 % 256, acc / 65536 % 256, acc / 256 % 256, acc % 256]

/-- The character loop of `a85decode` over `b + b'u' * 4`: `curr` is the
pending group of digit characters, `dec` the decoded bytes so far.
Digits are code points 33–117; 122 (`'z'`) is the zero-group short form
(illegal inside a group); 32, 9, 10, 13, 11 are the default
`ignorechars`; anything else raises.  A full 5-digit group whose value
overflows 32 bits raises `Ascii85 overflow`.  Returns the decoded bytes
and the final pending group. -/
def a85dloop : List Nat → List Nat → List Nat →
    Except DecodeErr (List Nat × List Nat)
  | [], curr, dec => .ok (dec, curr)
  | x :: rest, curr, dec =>
    if 33 ≤ x ∧ x ≤ 117 then
      if (curr ++ [x]).length = 5 then
        if (curr ++ [x]).foldl (fun a c => 85 * a + (c - 33)) 0 < 4294967296 then
          a85dloop rest []
            (dec ++ packBE4 ((curr ++ [x]).foldl (fun a c => 85 * a + (c - 33)) 0))
        else .error (.malformedText "Ascii85 overflow")
      else a85dloop rest (curr ++ [x]) dec
    else if x = 122 then
      if curr = [] then a85dloop rest [] (dec ++ [0, 0, 0, 0])
      else .error (.malformedText "z inside Ascii85 5-tuple")
    else if x = 32 ∨ x = 9 ∨ x = 10 ∨ x = 13 ∨ x = 11 then
      a85dloop rest curr dec
    else .error (.malformedText ("Non-Ascii85 digit found: ".push (Char.ofNat x)))

/-- `a85decode` on text: the input must be ASCII (CPython's
`_bytes_from_decode_data` rejects non-ASCII `str` input), then the
character loop runs over the input followed by four `'u'` (code 117)
padding characters, and `4 - len(curr)` trailing padding bytes are
dropped from the decoded result. -/
def a85decode (t : List Nat) : Except DecodeErr (List Nat) :=
  if t.all (· < 128) then
    match a85dloop (t ++ [117, 117, 117, 117]) [] [] with
    | .ok (dec, curr) => .ok (dec.take (dec.length - (4 - curr.length)))
    | .error e => .error e
  else .error (.malformedText "string argument should contain only ASCII characters")

/-! ## Fixed-width primitives (`struct` `<B` / `<I` / `<d`) -/

/-- `struct.pack('<I', tick)`: four little-endian bytes (the source
raises for `tick` outside `[0, 2^32)`; call sites below are constrained
to that range, where the `%`-form agrees). -/
def pack32 (t : Nat) : List Nat :=
  [t % 256, t / 256 % 256, t / 65536 % 256, t / 16777216 % 256]

/-- `struct.pack('<d', value)`: eight little-endian bytes of the IEEE-754
bit pattern (the float is carried as its 64-bit pattern). -/
def pack64 (v : Nat) : List Nat :=
  [v % 256, v / 256 % 256, v / 65536 % 256, v / 16777216 % 256,
   v / 4294967296 % 256, v / 1099511627776 % 256,
   v / 281474976710656 % 256, v / 72057594037927936 % 256]

/-- `unpack('<B')`: one byte, or the bare `ValueError()` when the buffer
is exhausted. -/
def read8 : List Nat → Except DecodeErr (Nat × List Nat)
  | [] => .error .truncated
  | b :: r => .ok (b, r)

/-- `unpack('<I')`: four little-endian bytes, or the bare `ValueError()`
when fewer than four bytes remain. -/
def read32 : List Nat → Except DecodeErr (Nat × List Nat)
  | b0 :: b1 :: b2 :: b3 :: r =>
    .ok (b0 + 256 * b1 + 65536 * b2 + 16777216 * b3, r)
  | _ => .error .truncated

/-- `unpack('<d')`: eight little-endian bytes (as the 64-bit pattern), or
the bare `ValueError()` when fewer than eight bytes remain. -/
def read64 : List Nat → Except DecodeErr (Nat × List Nat)
  | b0 :: b1 :: b2 :: b3 :: b4 :: b5 :: b6 :: b7 :: r =>
    .ok (b0 + 256 * b1 + 65536 * b2 + 16777216 * b3 + 4294967296 * b4
         + 1099511627776 * b5 + 281474976710656 * b6
         + 72057594037927936 * b7, r)
  | _ => .error .truncated

/-! ## Tempo codec -/

/-- One step of Python's stable `sorted(key=lambda x: x[0])`: insert `x`
before the first element whose tick is not smaller, so an element is
never moved past an equal-tick element that precedes it in the input. -/
def insertTick (x : Nat × Nat) : List (Nat × Nat) → List (Nat × Nat)
  | [] => [x]
  | y :: ys => if y.1 < x.1 then y :: insertTick x ys else x :: y :: ys

/-- `sorted(l, key=lambda x: x[0])`: a stable sort by tick (insertion
sort; extensionally the same function as CPython's stable sort). -/
def sortByTick : List (Nat × Nat) → List (Nat × Nat)
  | [] => []
  | x :: xs => insertTick x (sortByTick xs)

/-- The slices `l[i:i+254]` for `i in range(0, len(l), 254)`: consecutive
chunks of at most 254 entries. -/
def chunk254 (l : List (Nat × Nat)) : List (List (Nat × Nat)) :=
  if h : l = [] then [] else l.take 254 :: chunk254 (l.drop 254)
  termination_by l.length
  decreasing_by
    have : 0 < l.length := List.length_pos.mpr h
    simp only [List.length_drop]
    omega

/-- `pack_tempo_block`: `count:u8`, `type:u8`, then `count` repetitions
of `(tick:u32-LE, value:f64-LE)`. -/
def pack_tempo_block (ty : Nat) (data : List (Nat × Nat)) : List Nat :=
  data.length % 256 :: ty :: (data.map fun it => pack32 it.1 ++ pack64 it.2).flatten

/-- The byte payload built by `tempo_to_clipboard_data`: type-0 blocks of
the sorted bpms in chunks of 254, then type-1 blocks of the sorted stops,
then the terminating `count = 0` byte. -/
def tempoPayload (bpms stops : List (Nat × Nat)) : List Nat :=
  ((chunk254 (sortByTick bpms)).map (pack_tempo_block 0)).flatten
    ++ ((chunk254 (sortByTick stops)).map (pack_tempo_block 1)).flatten ++ [0]

/-- `tempo_to_clipboard_data`: the tempo magic prefix followed by the
ASCII85 encoding of the byte payload. -/
def tempo_to_clipboard_data (bpms stops : List (Nat × Nat)) : List Nat :=
  tempoMagic ++ a85encode (tempoPayload bpms stops)

/-- The inner `for _ in range(count)` loop of `clipboard_data_to_tempo`:
read `(tick, value)` pairs one at a time, appending to `bpms` when the
block type is 0 and to `stops` when it is 1, and raising the bare
`ValueError()` (here `unknownBlockType`) on any other type — note the
type is only checked after a full pair has been read. -/
def tempoItems : Nat → Nat → List Nat → List (Nat × Nat) → List (Nat × Nat) →
    Except DecodeErr (List (Nat × Nat) × List (Nat × Nat) × List Nat)
  | 0, _, d, bpms, stops => .ok (bpms, stops, d)
  | c + 1, ty, d, bpms, stops =>
    match read32 d with
    | .error e => .error e
    | .ok (tick, d1) =>
      match read64 d1 with
      | .error e => .error e
      | .ok (value, d2) =>
        if ty = 0 then tempoItems c ty d2 (bpms ++ [(tick, value)]) stops
        else if ty = 1 then tempoItems c ty d2 bpms (stops ++ [(tick, value)])
        else .error .unknownBlockType

/-- A successful 4-byte read consumes exactly four bytes. -/
theorem read32_length {d : List Nat} {t r} (h : read32 d = .ok (t, r)) :
    d.length = r.length + 4 := by
  rcases d with _ | ⟨b0, _ | ⟨b1, _ | ⟨b2, _ | ⟨b3, rest⟩⟩⟩⟩ <;>
    simp [read32] at h
  obtain ⟨-, h2⟩ := h
  simp [← h2]

/-- A successful 8-byte read consumes exactly eight bytes. -/
theorem read64_length {d : List Nat} {t r} (h : read64 d = .ok (t, r)) :
    d.length = r.length + 8 := by
  rcases d with _ | ⟨b0, _ | ⟨b1, _ | ⟨b2, _ | ⟨b3, _ | ⟨b4, _ | ⟨b5,
    _ | ⟨b6, _ | ⟨b7, rest⟩⟩⟩⟩⟩⟩⟩⟩ <;> simp [read64] at h
  obtain ⟨-, h2⟩ := h
  simp [← h2]

/-- A successful inner loop only consumes bytes. -/
theorem tempoItems_length {c ty : Nat} {d : List Nat} {bpms stops b' s' d'}
    (h : tempoItems c ty d bpms stops = .ok (b', s', d')) :
    d'.length ≤ d.length := by
  induction c generalizing d bpms stops with
  | zero =>
    simp only [tempoItems, Except.ok.injEq, Prod.mk.injEq] at h
    rw [← h.2.2]
  | succ c ih =>
    simp only [tempoItems] at h
    split at h
    · simp at h
    · rename_i tick d1 hr
      split at h
      · simp at h
      · rename_i value d2 hr2
        have l1 := read32_length hr
        have l2 := read64_length hr2
        split at h
        · have := ih h; omega
        · split at h
          · have := ih h; omega
          · simp at h

/-- The `while True` block loop of `clipboard_data_to_tempo`: read a
count byte (truncation is the bare `ValueError()`), stop on 0, otherwise
read the type byte and `count` pairs, then continue. -/
def tempoBlocks (d : List Nat) (bpms stops : List (Nat × Nat)) :
    Except DecodeErr (List (Nat × Nat) × List (Nat × Nat)) :=
  match d with
  | [] => .error .truncated
  | count :: r1 =>
    if count = 0 then .ok (bpms, stops)
    else
      match r1 with
      | [] => .error .truncated
      | ty :: r2 =>
        match h : tempoItems count ty r2 bpms stops with
        | .error e => .error e
        | .ok (b', s', r3) => tempoBlocks r3 b' s'
  termination_by d.length
  decreasing_by
    have := tempoItems_length h
    simp only [List.length_cons]
    omega

/-- `clipboard_data_to_tempo`: check the magic prefix (else
`ValueError('Invalid data')`), ASCII85-decode the rest, then run the
block loop with empty accumulators. -/
def clipboard_data_to_tempo (data : List Nat) :
    Except DecodeErr (List (Nat × Nat) × List (Nat × Nat)) :=
  if tempoMagic.isPrefixOf data then
    match a85decode (data.drop tempoMagic.length) with
    | .error e => .error e
    | .ok bytes => tempoBlocks bytes [] []
  else .error .magicMismatch

/-! ## Note codec -/

/-- The `Note` value class: start tick, end tick, column, and the
`special` type tag (−1 marks a plain step). -/
structure Note where
  start : Nat
  end_ : Nat
  column : Nat
  special : Int
  deriving DecidableEq, Repr

/-- `Note.is_step`: `special <= 0 and start == end`. -/
def Note.is_step (n : Note) : Bool :=
  decide (n.special ≤ 0) && decide (n.start = n.end_)

/-- The bytes `notes_to_clipboard_data` emits for one note: a step
(short form) is `column & 0x7f` (= `column % 128`) then `varint(start)`;
anything else (long form) is `column | 0x80` (= `column % 128 + 128` for
byte-range columns) then `varint(start)`, `varint(end)` and the raw
`special` byte (`struct.pack('<B', special)`, in range at the
constrained call sites). -/
def encodeNoteBytes (n : Note) : List Nat :=
  if n.is_step then n.column % 128 :: pack_vlc n.start
  else (n.column % 128 + 128) ::
    (pack_vlc n.start ++ pack_vlc n.end_ ++ [n.special.toNat % 256])

/-- The byte payload of `notes_to_clipboard_data`: one reserved zero
header byte, `varint(len(notes))`, then each note's bytes in input
order. -/
def notesPayload (notes : List Note) : List Nat :=
  0 :: (pack_vlc notes.length ++ (notes.map encodeNoteBytes).flatten)

/-- `notes_to_clipboard_data`: the notes magic prefix followed by the
ASCII85 encoding of the byte payload. -/
def notes_to_clipboard_data (notes : List Note) : List Nat :=
  notesMagic ++ a85encode (notesPayload notes)

/-- One iteration of the note-reading loop of `clipboard_data_to_notes`:
a control byte (bit 7 = long form, low bits = column), then either
`varint(start)`, `varint(end)` and a raw `special` byte (long form), or a
single varint giving both `start` and `end` with `special = −1` (short
form). -/
def readNote (d : List Nat) : Except DecodeErr (Note × List Nat) :=
  match d with
  | [] => .error .truncated
  | bits :: r1 =>
    if 128 ≤ bits then
      match unpack_vlc r1 with
      | .error e => .error e
      | .ok (start, r2) =>
        match unpack_vlc r2 with
        | .error e => .error e
        | .ok (end_, r3) =>
          match r3 with
          | [] => .error .truncated
          | sp :: r4 => .ok (⟨start, end_, bits % 128, Int.ofNat sp⟩, r4)
    else
      match unpack_vlc r1 with
      | .error e => .error e
      | .ok (s0, r2) => .ok (⟨s0, s0, bits % 128, -1⟩, r2)

/-- The `for _ in range(count)` loop of `clipboard_data_to_notes`,
appending each decoded note. -/
def notesLoop : Nat → List Nat → List Note →
    Except DecodeErr (List Note × List Nat)
  | 0, d, acc => .ok (acc, d)
  | c + 1, d, acc =>
    match readNote d with
    | .error e => .error e
    | .ok (n, r) => notesLoop c r (acc ++ [n])

/-- `clipboard_data_to_notes`: check the magic prefix (else
`ValueError('Invalid data')`), ASCII85-decode, discard the reserved
header byte, read the varint note count, then read that many notes
(trailing bytes are ignored). -/
def clipboard_data_to_notes (data : List Nat) :
    Except DecodeErr (List Note) :=
  if notesMagic.isPrefixOf data then
    match a85decode (data.drop notesMagic.length) with
    | .error e => .error e
    | .ok bytes =>
      match bytes with
      | [] => .error .truncated
      | _head :: r1 =>
        match unpack_vlc r1 with
        | .error e => .error e
        | .ok (count, r2) =>
          match notesLoop count r2 [] with
          | .error e => .error e
          | .ok (notes, _) => .ok notes
  else .error .magicMismatch

/-- The spec's data model for notes (§3 of the design): column in
[0, 127] and the six disjoint kinds — step (`special = −1`), mine, lift,
fake (`special ∈ {1, 3, 4}`) point-like, hold and roll
(`special ∈ {0, 2}`) with distinct endpoints. -/
def ValidNote (n : Note) : Prop :=
  n.column < 128 ∧
    ((n.start = n.end_ ∧ (n.special = -1 ∨ n.special = 1 ∨ n.special = 3 ∨ n.special = 4))
      ∨ (n.start ≠ n.end_ ∧ (n.special = 0 ∨ n.special = 2)))

instance (n : Note) : Decidable (ValidNote n) := by
  unfold ValidNote; infer_instance

/-- Spec §4.1 block layout, written from the spec's words (for the
refinement check of the encoder): `count:u8` — the chunk's length, in
1–254 — then `type:u8`, then `count` repetitions of
`(tick:u32-LE, value:f64-LE)`. -/
def specBlockBytes (ty : Nat) (chunk : List (Nat × Nat)) : List Nat :=
  chunk.length :: ty :: (chunk.map fun p => pack32 p.1 ++ pack64 p.2).flatten

/-- Spec §4.1 payload layout, written from the spec's words: the sorted
bpms in consecutive chunks of at most 254 entries, one block per chunk
with type tag 0, then the sorted stops likewise with type tag 1, then a
single terminating `count = 0` byte. -/
def specTempoLayout (bpms stops : List (Nat × Nat)) : List Nat :=
  ((chunk254 (sortByTick bpms)).map (specBlockBytes 0)).flatten
    ++ ((chunk254 (sortByTick stops)).map (specBlockBytes 1)).flatten ++ [0]

/-- The concatenated bytes of a sequence of tempo blocks, each given as
a type tag and its chunk of entries. -/
def tempoBlocksBytes (blocks : List (Nat × List (Nat × Nat))) : List Nat :=
  (blocks.map fun bl => pack_tempo_block bl.1 bl.2).flatten

/-- A well-formed encoder-produced block: known type tag, nonempty chunk
of at most 254 entries, ticks in 32 bits and values in 64 bits. -/
def WfBlock (bl : Nat × List (Nat × Nat)) : Prop :=
  (bl.1 = 0 ∨ bl.1 = 1) ∧ bl.2 ≠ [] ∧ bl.2.length ≤ 254
    ∧ ∀ p ∈ bl.2, p.1 < 4294967296 ∧ p.2 < 18446744073709551616

/-! ## Varint lemmas -/

/-- Every emitted varint byte is a byte. -/
theorem pack_vlc_lt {v : Nat} : ∀ b ∈ pack_vlc v, b < 256 := by
  induction v using pack_vlc.induct with
  | case1 v h => intro b hb; rw [pack_vlc, dif_pos h] at hb; simp at hb; omega
  | case2 v h ih =>
    intro b hb
    rw [pack_vlc, dif_neg h] at hb
    simp only [List.mem_cons] at hb
    rcases hb with rfl | hb
    · omega
    · exact ih b hb

/-- A varint is never empty. -/
theorem pack_vlc_ne_nil {v : Nat} : pack_vlc v ≠ [] := by
  rw [pack_vlc]
  split <;> simp

/-- All bytes of a varint except the last carry the continuation bit. -/
theorem pack_vlc_dropLast {v : Nat} : ∀ b ∈ (pack_vlc v).dropLast, 128 ≤ b := by
  induction v using pack_vlc.induct with
  | case1 v h => intro b hb; rw [pack_vlc, dif_pos h] at hb; simp at hb
  | case2 v h ih =>
    intro b hb
    rw [pack_vlc, dif_neg h, List.dropLast_cons_of_ne_nil pack_vlc_ne_nil] at hb
    simp only [List.mem_cons] at hb
    rcases hb with rfl | hb
    · omega
    · exact ih b hb

/-- Decoding a buffer made only of continuation bytes runs off the end:
the pathological all-continuation-bit varint fails as `truncated`. -/
theorem unpack_vlc_allCont {l : List Nat} (h : ∀ b ∈ l, 128 ≤ b) :
    unpack_vlc l = .error .truncated := by
  induction l with
  | nil => rfl
  | cons b rest ih =>
    have hb : ¬ b < 128 := by have := h b (by simp); omega
    rw [unpack_vlc, if_neg hb, ih fun x hx => h x (by simp [hx])]

/-- Varint round trip: decoding the encoding of any value, followed by
any remainder, returns the value and the remainder. -/
theorem unpack_vlc_pack_vlc (v : Nat) (rest : List Nat) :
    unpack_vlc (pack_vlc v ++ rest) = .ok (v, rest) := by
  induction v using pack_vlc.induct with
  | case1 v h =>
    rw [pack_vlc, dif_pos h]
    simp only [List.cons_append, List.nil_append, unpack_vlc]
    rw [if_pos (show v % 128 < 128 by omega)]
    simp only [Except.ok.injEq, Prod.mk.injEq]
    exact ⟨by omega, rfl⟩
  | case2 v h ih =>
    rw [pack_vlc, dif_neg h]
    simp only [List.cons_append, unpack_vlc, List.append_eq]
    rw [if_neg (by omega), ih]
    simp only [Except.ok.injEq, Prod.mk.injEq, and_true]
    omega

/-- Decoding any proper prefix of a varint fails as `truncated`. -/
theorem unpack_vlc_take {v k : Nat} (hk : k < (pack_vlc v).length) :
    unpack_vlc ((pack_vlc v).take k) = .error .truncated := by
  apply unpack_vlc_allCont
  intro b hb
  apply pack_vlc_dropLast (v := v)
  have h1 : (pack_vlc v).take k = ((pack_vlc v).dropLast).take k := by
    rw [List.dropLast_eq_take, List.take_take]
    congr 1
    omega
  rw [h1] at hb
  exact List.mem_of_mem_take hb

/-! ## ASCII85 round-trip lemmas -/

/-- A digit character joins the pending group while it has fewer than
five characters. -/
theorem a85dloop_digit {x : Nat} (h1 : 33 ≤ x) (h2 : x ≤ 117)
    {curr : List Nat} (hc : curr.length < 4) (rest dec : List Nat) :
    a85dloop (x :: rest) curr dec = a85dloop rest (curr ++ [x]) dec := by
  rw [a85dloop, if_pos ⟨h1, h2⟩, if_neg (by simp; omega)]

/-- The fifth digit character completes a group: its value is emitted as
four big-endian bytes when it fits in 32 bits. -/
theorem a85dloop_five {x : Nat} (h1 : 33 ≤ x) (h2 : x ≤ 117)
    {curr : List Nat} (hc : curr.length = 4)
    (hacc : (curr ++ [x]).foldl (fun a c => 85 * a + (c - 33)) 0 < 4294967296)
    (rest dec : List Nat) :
    a85dloop (x :: rest) curr dec
      = a85dloop rest []
          (dec ++ packBE4 ((curr ++ [x]).foldl (fun a c => 85 * a + (c - 33)) 0)) := by
  rw [a85dloop, if_pos ⟨h1, h2⟩, if_pos (by simp [hc]), if_pos hacc]

/-- Unpacking the big-endian word of four bytes gives back the bytes. -/
theorem packBE4_word {b0 b1 b2 b3 : Nat}
    (h0 : b0 < 256) (h1 : b1 < 256) (h2 : b2 < 256) (h3 : b3 < 256) :
    packBE4 (((b0 * 256 + b1) * 256 + b2) * 256 + b3) = [b0, b1, b2, b3] := by
  simp only [packBE4, List.cons.injEq, and_true]
  refine ⟨?_, ?_, ?_, ?_⟩ <;> omega

/-- Processing one full group's characters from an empty pending group
appends exactly the group's four bytes. -/
theorem a85dloop_group {w : Nat} (hw : w < 4294967296) (rest dec : List Nat) :
    a85dloop (groupChars w ++ rest) [] dec
      = a85dloop rest [] (dec ++ packBE4 w) := by
  rw [groupChars]
  by_cases h0 : w = 0
  · subst h0
    rw [if_pos rfl]
    simp only [List.cons_append, List.nil_append]
    rw [a85dloop, if_neg (by decide), if_pos rfl, if_pos rfl]
    rfl
  · rw [if_neg h0, encodeWord]
    have d0 : w / 52200625 ≤ 84 := by omega
    simp only [List.cons_append, List.nil_append]
    rw [a85dloop_digit (by omega) (by omega) (by simp),
        a85dloop_digit (by omega) (by omega) (by simp),
        a85dloop_digit (by omega) (by omega) (by simp),
        a85dloop_digit (by omega) (by omega) (by simp)]
    simp only [List.nil_append, List.cons_append]
    have hfold :
        ([33 + w / 52200625, 33 + w / 614125 % 85, 33 + w / 7225 % 85,
          33 + w / 85 % 85] ++ [33 + w % 85]).foldl
            (fun a c => 85 * a + (c - 33)) 0 = w := by
      simp only [List.cons_append, List.nil_append, List.foldl]
      omega
    rw [a85dloop_five (by omega) (by omega) (by simp) (by rw [hfold]; exact hw),
        hfold]

/-- Dividing `V * Q + s` by `Q` recovers `V` when `s < Q`. -/
theorem div_mod_byte {V s Q : Nat} (hQ : 0 < Q) (hs : s < Q) :
    (V * Q + s) / Q = V := by
  rw [add_comm, Nat.add_mul_div_right _ _ hQ, Nat.div_eq_of_lt hs, Nat.zero_add]

/-- Running the decode loop over the encoder's output (plus the four
`'u'` padding characters) decodes all input bytes, plus, when the input
length is not a multiple of four, `4 - len % 4` junk padding bytes that
the final truncation step of `a85decode` will drop; the pending group at
the end holds the unconsumed `'u'` characters. -/
theorem a85dloop_enc : ∀ l : List Nat, (∀ b ∈ l, b < 256) → ∀ dec : List Nat,
    ∃ junk : List Nat,
      a85dloop (a85encode l ++ [117, 117, 117, 117]) [] dec
        = .ok (dec ++ l ++ junk,
            List.replicate (if l.length % 4 = 0 then 4 else l.length % 4) 117)
      ∧ junk.length = (4 - l.length % 4) % 4 := by
  intro l
  induction l using a85encode.induct with
  | case1 b0 b1 b2 b3 rest ih =>
    intro hl dec
    have h0 : b0 < 256 := hl b0 (by simp)
    have h1 : b1 < 256 := hl b1 (by simp)
    have h2 : b2 < 256 := hl b2 (by simp)
    have h3 : b3 < 256 := hl b3 (by simp)
    have hw : ((b0 * 256 + b1) * 256 + b2) * 256 + b3 < 4294967296 := by omega
    rw [a85encode, List.append_assoc, a85dloop_group hw, packBE4_word h0 h1 h2 h3]
    obtain ⟨junk, hj, hlen⟩ := ih (fun b hb => hl b (by simp [hb])) (dec ++ [b0, b1, b2, b3])
    refine ⟨junk, ?_, ?_⟩
    · rw [hj]
      have hmod : (b0 :: b1 :: b2 :: b3 :: rest).length % 4 = rest.length % 4 := by
        simp only [List.length_cons]; omega
      rw [hmod]
      simp [List.append_assoc]
    · have hmod : (b0 :: b1 :: b2 :: b3 :: rest).length % 4 = rest.length % 4 := by
        simp only [List.length_cons]; omega
      rw [hmod]
      exact hlen
  | case2 =>
    intro _ dec
    refine ⟨[], ?_, rfl⟩
    have : a85dloop (a85encode [] ++ [117, 117, 117, 117]) [] dec
        = .ok (dec, [117, 117, 117, 117]) := rfl
    rw [this]
    simp
  | case3 b0 =>
    intro hl dec
    have hb0 : b0 < 256 := hl b0 (by simp)
    have henc : a85encode [b0]
        = [33 + b0 * 16777216 / 52200625, 33 + b0 * 16777216 / 614125 % 85] := by
      rw [a85encode, encodeWord]
      rfl
    rw [henc]
    have hd0 : b0 * 16777216 / 52200625 ≤ 84 := by omega
    simp only [List.cons_append, List.nil_append]
    rw [a85dloop_digit (by omega) (by omega) (by simp),
        a85dloop_digit (by omega) (by omega) (by simp),
        a85dloop_digit (by decide) (by decide) (by simp),
        a85dloop_digit (by decide) (by decide) (by simp)]
    simp only [List.nil_append, List.cons_append]
    have hfold :
        ([33 + b0 * 16777216 / 52200625, 33 + b0 * 16777216 / 614125 % 85, 117,
          117] ++ [117]).foldl (fun a c => 85 * a + (c - 33)) 0
          = b0 * 16777216 / 614125 * 614125 + 614124 := by
      simp only [List.cons_append, List.nil_append, List.foldl]
      omega
    rw [a85dloop_five (by decide) (by decide) (by simp) (by rw [hfold]; omega) _ _,
        hfold, a85dloop_digit (by decide) (by decide) (by simp), a85dloop]
    obtain ⟨s, hs, hsP⟩ : ∃ s, b0 * 16777216 / 614125 * 614125 + 614124
        = b0 * 16777216 + s ∧ s < 614125 :=
      ⟨614124 - b0 * 16777216 % 614125, by omega, by omega⟩
    rw [hs]
    have e24 : (b0 * 16777216 + s) / 16777216 = b0 :=
      div_mod_byte (by norm_num) (by omega)
    refine ⟨[(b0 * 16777216 + s) / 65536 % 256, (b0 * 16777216 + s) / 256 % 256,
             (b0 * 16777216 + s) % 256], ?_, by simp⟩
    simp only [packBE4, e24, Nat.mod_eq_of_lt hb0]
    simp [List.append_assoc]
  | case4 b0 b1 =>
    intro hl dec
    have hb0 : b0 < 256 := hl b0 (by simp)
    have hb1 : b1 < 256 := hl b1 (by simp)
    have henc : a85encode [b0, b1]
        = [33 + (b0 * 16777216 + b1 * 65536) / 52200625,
           33 + (b0 * 16777216 + b1 * 65536) / 614125 % 85,
           33 + (b0 * 16777216 + b1 * 65536) / 7225 % 85] := by
      rw [a85encode, encodeWord]
      rfl
    rw [henc]
    have hd0 : (b0 * 16777216 + b1 * 65536) / 52200625 ≤ 84 := by omega
    simp only [List.cons_append, List.nil_append]
    rw [a85dloop_digit (by omega) (by omega) (by simp),
        a85dloop_digit (by omega) (by omega) (by simp),
        a85dloop_digit (by omega) (by omega) (by simp),
        a85dloop_digit (by decide) (by decide) (by simp)]
    simp only [List.nil_append, List.cons_append]
    have t1 : (b0 * 16777216 + b1 * 65536) / 614125 / 85
        = (b0 * 16777216 + b1 * 65536) / 52200625 := by
      rw [Nat.div_div_eq_div_mul]
    have t2 : (b0 * 16777216 + b1 * 65536) / 7225 / 85
        = (b0 * 16777216 + b1 * 65536) / 614125 := by
      rw [Nat.div_div_eq_div_mul]
    have hfold :
        ([33 + (b0 * 16777216 + b1 * 65536) / 52200625,
          33 + (b0 * 16777216 + b1 * 65536) / 614125 % 85,
          33 + (b0 * 16777216 + b1 * 65536) / 7225 % 85, 117] ++ [117]).foldl
            (fun a c => 85 * a + (c - 33)) 0
          = (b0 * 16777216 + b1 * 65536) / 7225 * 7225 + 7224 := by
      simp only [List.cons_append, List.nil_append, List.foldl]
      omega
    rw [a85dloop_five (by decide) (by decide) (by simp) (by rw [hfold]; omega) _ _,
        hfold, a85dloop_digit (by decide) (by decide) (by simp),
        a85dloop_digit (by decide) (by decide) (by simp), a85dloop]
    obtain ⟨s, hs, hsP⟩ : ∃ s, (b0 * 16777216 + b1 * 65536) / 7225 * 7225 + 7224
        = b0 * 16777216 + b1 * 65536 + s ∧ s < 7225 :=
      ⟨7224 - (b0 * 16777216 + b1 * 65536) % 7225, by omega, by omega⟩
    rw [hs]
    have e24 : (b0 * 16777216 + b1 * 65536 + s) / 16777216 = b0 := by
      rw [show b0 * 16777216 + b1 * 65536 + s
            = b0 * 16777216 + (b1 * 65536 + s) by ring]
      exact div_mod_byte (by norm_num) (by omega)
    have e16 : (b0 * 16777216 + b1 * 65536 + s) / 65536 = b0 * 256 + b1 := by
      rw [show b0 * 16777216 + b1 * 65536 + s
            = (b0 * 256 + b1) * 65536 + s by ring]
      exact div_mod_byte (by norm_num) (by omega)
    refine ⟨[(b0 * 16777216 + b1 * 65536 + s) / 256 % 256,
             (b0 * 16777216 + b1 * 65536 + s) % 256], ?_, by simp⟩
    simp only [packBE4, e24, e16, Nat.mod_eq_of_lt hb0,
      show (b0 * 256 + b1) % 256 = b1 by omega]
    simp [List.append_assoc]
  | case5 b0 b1 b2 =>
    intro hl dec
    have hb0 : b0 < 256 := hl b0 (by simp)
    have hb1 : b1 < 256 := hl b1 (by simp)
    have hb2 : b2 < 256 := hl b2 (by simp)
    have henc : a85encode [b0, b1, b2]
        = [33 + (b0 * 16777216 + b1 * 65536 + b2 * 256) / 52200625,
           33 + (b0 * 16777216 + b1 * 65536 + b2 * 256) / 614125 % 85,
           33 + (b0 * 16777216 + b1 * 65536 + b2 * 256) / 7225 % 85,
           33 + (b0 * 16777216 + b1 * 65536 + b2 * 256) / 85 % 85] := by
      rw [a85encode, encodeWord]
      rfl
    rw [henc]
    have hd0 : (b0 * 16777216 + b1 * 65536 + b2 * 256) / 52200625 ≤ 84 := by omega
    simp only [List.cons_append, List.nil_append]
    rw [a85dloop_digit (by omega) (by omega) (by simp),
        a85dloop_digit (by omega) (by omega) (by simp),
        a85dloop_digit (by omega) (by omega) (by simp),
        a85dloop_digit (by omega) (by omega) (by simp)]
    simp only [List.nil_append, List.cons_append]
    have t1 : (b0 * 16777216 + b1 * 65536 + b2 * 256) / 614125 / 85
        = (b0 * 16777216 + b1 * 65536 + b2 * 256) / 52200625 := by
      rw [Nat.div_div_eq_div_mul]
    have t2 : (b0 * 16777216 + b1 * 65536 + b2 * 256) / 7225 / 85
        = (b0 * 16777216 + b1 * 65536 + b2 * 256) / 614125 := by
      rw [Nat.div_div_eq_div_mul]
    have t3 : (b0 * 16777216 + b1 * 65536 + b2 * 256) / 85 / 85
        = (b0 * 16777216 + b1 * 65536 + b2 * 256) / 7225 := by
      rw [Nat.div_div_eq_div_mul]
    have hfold :
        ([33 + (b0 * 16777216 + b1 * 65536 + b2 * 256) / 52200625,
          33 + (b0 * 16777216 + b1 * 65536 + b2 * 256) / 614125 % 85,
          33 + (b0 * 16777216 + b1 * 65536 + b2 * 256) / 7225 % 85,
          33 + (b0 * 16777216 + b1 * 65536 + b2 * 256) / 85 % 85] ++ [117]).foldl
            (fun a c => 85 * a + (c - 33)) 0
          = (b0 * 16777216 + b1 * 65536 + b2 * 256) / 85 * 85 + 84 := by
      simp only [List.cons_append, List.nil_append, List.foldl]
      omega
    rw [a85dloop_five (by decide) (by decide) (by simp) (by rw [hfold]; omega) _ _,
        hfold, a85dloop_digit (by decide) (by decide) (by simp),
        a85dloop_digit (by decide) (by decide) (by simp),
        a85dloop_digit (by decide) (by decide) (by simp), a85dloop]
    obtain ⟨s, hs, hsP⟩ :
        ∃ s, (b0 * 16777216 + b1 * 65536 + b2 * 256) / 85 * 85 + 84
          = b0 * 16777216 + b1 * 65536 + b2 * 256 + s ∧ s < 85 :=
      ⟨84 - (b0 * 16777216 + b1 * 65536 + b2 * 256) % 85, by omega, by omega⟩
    rw [hs]
    have e24 : (b0 * 16777216 + b1 * 65536 + b2 * 256 + s) / 16777216 = b0 := by
      rw [show b0 * 16777216 + b1 * 65536 + b2 * 256 + s
            = b0 * 16777216 + (b1 * 65536 + b2 * 256 + s) by ring]
      exact div_mod_byte (by norm_num) (by omega)
    have e16 : (b0 * 16777216 + b1 * 65536 + b2 * 256 + s) / 65536
        = b0 * 256 + b1 := by
      rw [show b0 * 16777216 + b1 * 65536 + b2 * 256 + s
            = (b0 * 256 + b1) * 65536 + (b2 * 256 + s) by ring]
      exact div_mod_byte (by norm_num) (by omega)
    have e8 : (b0 * 16777216 + b1 * 65536 + b2 * 256 + s) / 256
        = (b0 * 256 + b1) * 256 + b2 := by
      rw [show b0 * 16777216 + b1 * 65536 + b2 * 256 + s
            = ((b0 * 256 + b1) * 256 + b2) * 256 + s by ring]
      exact div_mod_byte (by norm_num) (by omega)
    refine ⟨[(b0 * 16777216 + b1 * 65536 + b2 * 256 + s) % 256], ?_, by simp⟩
    simp only [packBE4, e24, e16, e8, Nat.mod_eq_of_lt hb0,
      show (b0 * 256 + b1) % 256 = b1 by omega,
      show ((b0 * 256 + b1) * 256 + b2) % 256 = b2 by omega]
    simp [List.append_assoc]

/-- Every character emitted by the encoder is ASCII: base-85 digits are
33–117 and the zero-group short form is 122. -/
theorem a85encode_ascii : ∀ l : List Nat, (∀ b ∈ l, b < 256) →
    ∀ c ∈ a85encode l, c < 128 := by
  intro l
  induction l using a85encode.induct with
  | case1 b0 b1 b2 b3 rest ih =>
    intro hl c hc
    rw [a85encode] at hc
    rcases List.mem_append.mp hc with hc | hc
    · have h0 : b0 < 256 := hl b0 (by simp)
      have h1 : b1 < 256 := hl b1 (by simp)
      have h2 : b2 < 256 := hl b2 (by simp)
      have h3 : b3 < 256 := hl b3 (by simp)
      rw [groupChars] at hc
      split at hc
      · simp at hc
        omega
      · rw [encodeWord] at hc
        have : ((b0 * 256 + b1) * 256 + b2) * 256 + b3 < 4294967296 := by omega
        simp only [List.mem_cons, List.not_mem_nil, or_false] at hc
        rcases hc with rfl | rfl | rfl | rfl | rfl <;> omega
    · exact ih (fun b hb => hl b (by simp [hb])) c hc
  | case2 => intro _ c hc; simp [a85encode] at hc
  | case3 b0 =>
    intro hl c hc
    have h0 : b0 < 256 := hl b0 (by simp)
    rw [a85encode, encodeWord] at hc
    have hm := List.mem_of_mem_take hc
    simp only [List.mem_cons, List.not_mem_nil, or_false] at hm
    have : b0 * 16777216 < 4294967296 := by omega
    rcases hm with rfl | rfl | rfl | rfl | rfl <;> omega
  | case4 b0 b1 =>
    intro hl c hc
    have h0 : b0 < 256 := hl b0 (by simp)
    have h1 : b1 < 256 := hl b1 (by simp)
    rw [a85encode, encodeWord] at hc
    have hm := List.mem_of_mem_take hc
    simp only [List.mem_cons, List.not_mem_nil, or_false] at hm
    have : b0 * 16777216 + b1 * 65536 < 4294967296 := by omega
    rcases hm with rfl | rfl | rfl | rfl | rfl <;> omega
  | case5 b0 b1 b2 =>
    intro hl c hc
    have h0 : b0 < 256 := hl b0 (by simp)
    have h1 : b1 < 256 := hl b1 (by simp)
    have h2 : b2 < 256 := hl b2 (by simp)
    rw [a85encode, encodeWord] at hc
    have hm := List.mem_of_mem_take hc
    simp only [List.mem_cons, List.not_mem_nil, or_false] at hm
    have : b0 * 16777216 + b1 * 65536 + b2 * 256 < 4294967296 := by omega
    rcases hm with rfl | rfl | rfl | rfl | rfl <;> omega

/-- ASCII85 round trip: decoding the encoding of any byte buffer gives
the buffer back. -/
theorem a85decode_a85encode {l : List Nat} (hl : ∀ b ∈ l, b < 256) :
    a85decode (a85encode l) = .ok l := by
  rw [a85decode, if_pos (by
    rw [List.all_eq_true]
    intro c hc
    simpa using a85encode_ascii l hl c hc)]
  obtain ⟨junk, hj, hlen⟩ := a85dloop_enc l hl []
  rw [hj]
  simp only [List.nil_append]
  by_cases h4 : l.length % 4 = 0
  · rw [if_pos h4] at hj ⊢
    simp only [List.length_replicate] at *
    have : junk = [] := List.length_eq_zero.mp (by omega)
    subst this
    simp
  · rw [if_neg h4] at hj ⊢
    simp only [List.length_replicate]
    have hlt : l.length % 4 < 4 := Nat.mod_lt _ (by norm_num)
    have heq : (4 - l.length % 4) % 4 = 4 - l.length % 4 := by omega
    rw [heq] at hlen
    rw [show (l ++ junk).length - (4 - l.length % 4) = l.length by
          rw [List.length_append, hlen]; omega,
        List.take_left]

/-! ## Magic-prefix helpers -/

/-- `startswith` succeeds on `magic ++ rest`. -/
theorem isPrefixOf_append_self (m x : List Nat) : m.isPrefixOf (m ++ x) = true := by
  rw [ List.isPrefixOf_iff_prefix]
  exact ⟨x, rfl⟩

/-! ## Stable sort lemmas -/

theorem mem_insertTick {a x : Nat × Nat} {l : List (Nat × Nat)} :
    a ∈ insertTick x l ↔ a = x ∨ a ∈ l := by
  induction l with
  | nil => simp [insertTick]
  | cons y ys ih =>
    rw [insertTick]
    split
    · simp only [List.mem_cons, ih]
      tauto
    · simp only [List.mem_cons]

theorem mem_sortByTick {a : Nat × Nat} {l : List (Nat × Nat)} :
    a ∈ sortByTick l ↔ a ∈ l := by
  induction l with
  | nil => simp [sortByTick]
  | cons y ys ih =>
    simp [sortByTick, mem_insertTick, ih]

theorem insertTick_pairwise {x : Nat × Nat} {l : List (Nat × Nat)}
    (h : l.Pairwise (fun a b => a.1 ≤ b.1)) :
    (insertTick x l).Pairwise (fun a b => a.1 ≤ b.1) := by
  induction l with
  | nil => simp [insertTick]
  | cons y ys ih =>
    rw [List.pairwise_cons] at h
    obtain ⟨hy, hys⟩ := h
    rw [insertTick]
    split
    · rename_i hlt
      rw [List.pairwise_cons]
      refine ⟨?_, ih hys⟩
      intro b hb
      rcases mem_insertTick.mp hb with rfl | hb
      · omega
      · exact hy b hb
    · rename_i hge
      rw [List.pairwise_cons]
      refine ⟨?_, List.pairwise_cons.mpr ⟨hy, hys⟩⟩
      intro b hb
      rcases List.mem_cons.mp hb with rfl | hb
      · omega
      · have := hy b hb
        omega

/-- The output of the sort is sorted by tick (non-strictly ascending). -/
theorem sortByTick_pairwise (l : List (Nat × Nat)) :
    (sortByTick l).Pairwise (fun a b => a.1 ≤ b.1) := by
  induction l with
  | nil => simp [sortByTick]
  | cons y ys ih => exact insertTick_pairwise ih

/-- Inserting `x` leaves the subsequence of any fixed tick unchanged
except that `x` is prepended to its own tick's subsequence: the insertion
point lies strictly after all smaller ticks and strictly before any
equal tick. -/
theorem insertTick_filter (x : Nat × Nat) (l : List (Nat × Nat)) (t : Nat) :
    (insertTick x l).filter (fun p => p.1 == t)
      = if x.1 = t then x :: l.filter (fun p => p.1 == t)
        else l.filter (fun p => p.1 == t) := by
  induction l with
  | nil =>
    by_cases ht : x.1 = t <;> simp [insertTick, List.filter_cons, ht]
  | cons y ys ih =>
    rw [insertTick]
    split
    · rename_i hlt
      by_cases ht : x.1 = t
      · rw [if_pos ht]
        have hy : (y.1 == t) = false := by simp; omega
        simp only [List.filter_cons, hy, Bool.false_eq_true, if_neg, ih, if_pos ht]
        simp [hy]
      · rw [if_neg ht]
        simp only [List.filter_cons]
        rw [ih, if_neg ht]
    · rename_i hge
      by_cases ht : x.1 = t
      · rw [if_pos ht]
        simp [List.filter_cons, ht]
      · rw [if_neg ht]
        simp [List.filter_cons, ht]

/-- Stability: the sort preserves, for every tick value, the exact
subsequence of entries carrying that tick. -/
theorem sortByTick_filter (l : List (Nat × Nat)) (t : Nat) :
    (sortByTick l).filter (fun p => p.1 == t) = l.filter (fun p => p.1 == t) := by
  induction l with
  | nil => rfl
  | cons x xs ih =>
    rw [sortByTick, insertTick_filter]
    by_cases ht : x.1 = t
    · rw [if_pos ht, ih]
      simp [List.filter_cons, ht]
    · rw [if_neg ht, ih]
      simp [List.filter_cons, ht]

/-! ## Chunking lemmas -/

/-- The consecutive chunks reassemble to the original list. -/
theorem chunk254_flatten (l : List (Nat × Nat)) : (chunk254 l).flatten = l := by
  induction l using chunk254.induct with
  | case1 => simp [chunk254]
  | case2 l h ih =>
    rw [chunk254, dif_neg h]
    simp [ih, List.take_append_drop]

/-- Every chunk is nonempty and holds at most 254 entries. -/
theorem chunk254_mem {l c : List (Nat × Nat)} (hc : c ∈ chunk254 l) :
    c ≠ [] ∧ c.length ≤ 254 := by
  induction l using chunk254.induct with
  | case1 => simp [chunk254] at hc
  | case2 l h ih =>
    rw [chunk254, dif_neg h] at hc
    rcases List.mem_cons.mp hc with rfl | hc
    · constructor
      · simp only [ne_eq, List.take_eq_nil_iff]
        simp [h]
      · simp
    · exact ih hc

/-! ## Tempo round-trip lemmas -/

/-- Reading back a packed 32-bit tick. -/
theorem read32_pack32 {t : Nat} (ht : t < 4294967296) (r : List Nat) :
    read32 (pack32 t ++ r) = .ok (t, r) := by
  simp only [pack32, List.cons_append, List.nil_append, read32, Except.ok.injEq,
    Prod.mk.injEq, and_true]
  omega

/-- Reading back a packed 64-bit value. -/
theorem read64_pack64 {v : Nat} (hv : v < 18446744073709551616) (r : List Nat) :
    read64 (pack64 v ++ r) = .ok (v, r) := by
  simp only [pack64, List.cons_append, List.nil_append, read64, Except.ok.injEq,
    Prod.mk.injEq, and_true]
  omega

/-- The inner item loop consumes exactly one encoded chunk, appending its
entries to the accumulator selected by the (valid) block type. -/
theorem tempoItems_enc {ty : Nat} (hty : ty = 0 ∨ ty = 1)
    (chunk : List (Nat × Nat))
    (hw : ∀ p ∈ chunk, p.1 < 4294967296 ∧ p.2 < 18446744073709551616)
    (rest : List Nat) (bpms stops : List (Nat × Nat)) :
    tempoItems chunk.length ty
        ((chunk.map fun it => pack32 it.1 ++ pack64 it.2).flatten ++ rest) bpms stops
      = .ok ((if ty = 0 then bpms ++ chunk else bpms),
             (if ty = 1 then stops ++ chunk else stops), rest) := by
  induction chunk generalizing bpms stops with
  | nil => rcases hty with rfl | rfl <;> simp [tempoItems]
  | cons p ps ih =>
    obtain ⟨hp1, hp2⟩ := hw p (by simp)
    simp only [List.map_cons, List.flatten_cons, List.length_cons, List.append_assoc]
    rw [tempoItems, read32_pack32 hp1]
    rcases hty with rfl | rfl
    · simp only [read64_pack64 hp2, Prod.mk.eta]
      rw [ih (fun q hq => hw q (by simp [hq])) (bpms ++ [p]) stops]
      simp
    · simp only [read64_pack64 hp2, Prod.mk.eta]
      rw [ih (fun q hq => hw q (by simp [hq])) bpms (stops ++ [p])]
      simp

/-- Unfolding the block loop across one well-formed block. -/
theorem tempoBlocks_cons_ok {count ty : Nat} {r2 r3 : List Nat}
    {bpms stops b' s' : List (Nat × Nat)} (hc : count ≠ 0)
    (hitems : tempoItems count ty r2 bpms stops = .ok (b', s', r3)) :
    tempoBlocks (count :: ty :: r2) bpms stops = tempoBlocks r3 b' s' := by
  rw [tempoBlocks]
  simp only [if_neg hc]
  split
  · rename_i e heq
    rw [hitems] at heq
    simp at heq
  · rename_i b'' s'' r3'' heq
    rw [hitems] at heq
    simp only [Except.ok.injEq, Prod.mk.injEq] at heq
    obtain ⟨rfl, rfl, rfl⟩ := heq
    rfl

/-- Unfolding the block loop across a failing block. -/
theorem tempoBlocks_cons_err {count ty : Nat} {r2 : List Nat}
    {bpms stops : List (Nat × Nat)} {e : DecodeErr} (hc : count ≠ 0)
    (hitems : tempoItems count ty r2 bpms stops = .error e) :
    tempoBlocks (count :: ty :: r2) bpms stops = .error e := by
  rw [tempoBlocks]
  simp only [if_neg hc]
  split
  · rename_i e' heq
    rw [hitems] at heq
    simp only [Except.error.injEq] at heq
    rw [heq]
  · rename_i b'' s'' r3'' heq
    rw [hitems] at heq
    simp at heq

/-- The terminator byte stops the loop successfully. -/
theorem tempoBlocks_zero (r : List Nat) (bpms stops : List (Nat × Nat)) :
    tempoBlocks (0 :: r) bpms stops = .ok (bpms, stops) := by
  rw [tempoBlocks.eq_def]
  simp

/-- An exhausted buffer fails the count read. -/
theorem tempoBlocks_nil (bpms stops : List (Nat × Nat)) :
    tempoBlocks [] bpms stops = .error .truncated := by
  rw [tempoBlocks.eq_def]

/-- A lone nonzero count byte fails the type read. -/
theorem tempoBlocks_one {count : Nat} (hc : count ≠ 0)
    (bpms stops : List (Nat × Nat)) :
    tempoBlocks [count] bpms stops = .error .truncated := by
  rw [tempoBlocks.eq_def]
  simp only [if_neg hc]

/-- Decoding a run of same-type well-formed blocks followed by anything
appends all their entries to the type's accumulator and continues. -/
theorem tempoBlocks_encChunks {ty : Nat} (hty : ty = 0 ∨ ty = 1)
    (chunks : List (List (Nat × Nat)))
    (hne : ∀ c ∈ chunks, c ≠ [] ∧ c.length ≤ 254
      ∧ ∀ p ∈ c, p.1 < 4294967296 ∧ p.2 < 18446744073709551616)
    (suffix : List Nat) (bpms stops : List (Nat × Nat)) :
    tempoBlocks ((chunks.map (pack_tempo_block ty)).flatten ++ suffix) bpms stops
      = tempoBlocks suffix (if ty = 0 then bpms ++ chunks.flatten else bpms)
          (if ty = 1 then stops ++ chunks.flatten else stops) := by
  induction chunks generalizing bpms stops with
  | nil => rcases hty with rfl | rfl <;> simp
  | cons c cs ih =>
    obtain ⟨hc0, hc254, hcw⟩ := hne c (by simp)
    have hlen : c.length % 256 = c.length := by omega
    have hne0 : c.length % 256 ≠ 0 := by
      have : 0 < c.length := List.length_pos.mpr hc0
      omega
    simp only [List.map_cons, List.flatten_cons, pack_tempo_block,
      List.cons_append, List.append_assoc]
    rw [tempoBlocks_cons_ok hne0
      (by rw [hlen]; exact tempoItems_enc hty c hcw _ bpms stops)]
    rw [ih (fun d hd => hne d (by simp [hd])) _ _]
    rcases hty with rfl | rfl <;> simp

/-- The helper `chunk254` applied to a sorted well-formed list yields
well-formed blocks. -/
theorem chunk254_wf {l : List (Nat × Nat)}
    (hl : ∀ p ∈ l, p.1 < 4294967296 ∧ p.2 < 18446744073709551616) :
    ∀ c ∈ chunk254 (sortByTick l), c ≠ [] ∧ c.length ≤ 254
      ∧ ∀ p ∈ c, p.1 < 4294967296 ∧ p.2 < 18446744073709551616 := by
  intro c hc
  obtain ⟨h1, h2⟩ := chunk254_mem hc
  refine ⟨h1, h2, ?_⟩
  intro p hp
  have hmem : p ∈ (chunk254 (sortByTick l)).flatten :=
    List.mem_flatten.mpr ⟨c, hc, hp⟩
  rw [chunk254_flatten] at hmem
  exact hl p (mem_sortByTick.mp hmem)

/-- Byte-level decode of the tempo payload: both lists come back sorted. -/
theorem tempoBlocks_tempoPayload {b s : List (Nat × Nat)}
    (hb : ∀ p ∈ b, p.1 < 4294967296 ∧ p.2 < 18446744073709551616)
    (hs : ∀ p ∈ s, p.1 < 4294967296 ∧ p.2 < 18446744073709551616) :
    tempoBlocks (tempoPayload b s) [] [] = .ok (sortByTick b, sortByTick s) := by
  rw [tempoPayload, List.append_assoc,
    tempoBlocks_encChunks (Or.inl rfl) _ (chunk254_wf hb) _ [] [],
    tempoBlocks_encChunks (Or.inr rfl) _ (chunk254_wf hs) _ _ _,
    tempoBlocks_zero]
  simp [chunk254_flatten]

/-- Every byte of the tempo payload is a byte. -/
theorem tempoPayload_bytes (b s : List (Nat × Nat)) :
    ∀ x ∈ tempoPayload b s, x < 256 := by
  intro x hx
  rw [tempoPayload] at hx
  have hblock : ∀ ty : Nat, ty < 256 → ∀ c : List (Nat × Nat),
      ∀ y ∈ pack_tempo_block ty c, y < 256 := by
    intro ty hty c y hy
    rw [pack_tempo_block] at hy
    simp only [List.mem_cons] at hy
    rcases hy with rfl | rfl | hy
    · exact Nat.mod_lt _ (by norm_num)
    · exact hty
    · obtain ⟨bs, hbs, hybs⟩ := List.mem_flatten.mp hy
      obtain ⟨p, hp, rfl⟩ := List.mem_map.mp hbs
      rcases List.mem_append.mp hybs with h | h
      · simp only [pack32, List.mem_cons, List.not_mem_nil, or_false] at h
        rcases h with rfl | rfl | rfl | rfl <;> omega
      · simp only [pack64, List.mem_cons, List.not_mem_nil, or_false] at h
        rcases h with rfl | rfl | rfl | rfl | rfl | rfl | rfl | rfl <;> omega
  rcases List.mem_append.mp hx with hx | hx
  · rcases List.mem_append.mp hx with hx | hx
    all_goals
      obtain ⟨bs, hbs, hybs⟩ := List.mem_flatten.mp hx
      obtain ⟨c, hc, rfl⟩ := List.mem_map.mp hbs
      exact hblock _ (by norm_num) c _ hybs
  · simp only [List.mem_singleton] at hx
    omega

/-! ## Note round-trip lemmas -/

/-- Every byte a note encodes to is a byte. -/
theorem encodeNoteBytes_lt (n : Note) : ∀ x ∈ encodeNoteBytes n, x < 256 := by
  intro x hx
  rw [encodeNoteBytes] at hx
  split at hx
  · simp only [List.mem_cons] at hx
    rcases hx with rfl | hx
    · have := Nat.mod_lt n.column (show 0 < 128 by norm_num)
      omega
    · exact pack_vlc_lt x hx
  · simp only [List.mem_cons, List.mem_append, List.mem_singleton,
      List.not_mem_nil, or_false] at hx
    rcases hx with rfl | (hx | hx) | rfl
    · have := Nat.mod_lt n.column (show 0 < 128 by norm_num)
      omega
    · exact pack_vlc_lt x hx
    · exact pack_vlc_lt x hx
    · exact Nat.mod_lt _ (by norm_num)

/-- Every byte of the notes payload is a byte. -/
theorem notesPayload_bytes (ns : List Note) : ∀ x ∈ notesPayload ns, x < 256 := by
  intro x hx
  rw [notesPayload] at hx
  simp only [List.mem_cons, List.mem_append] at hx
  rcases hx with rfl | hx | hx
  · norm_num
  · exact pack_vlc_lt x hx
  · obtain ⟨bs, hbs, hybs⟩ := List.mem_flatten.mp hx
    obtain ⟨n, hn, rfl⟩ := List.mem_map.mp hbs
    exact encodeNoteBytes_lt n x hybs

/-- Reading back a short-form (step) note: the column comes back reduced
modulo 128. -/
theorem readNote_short (st col : Nat) (rest : List Nat) :
    readNote (encodeNoteBytes ⟨st, st, col, -1⟩ ++ rest)
      = .ok (⟨st, st, col % 128, -1⟩, rest) := by
  have hstep : Note.is_step ⟨st, st, col, -1⟩ = true := by
    simp [Note.is_step]
  rw [encodeNoteBytes, if_pos hstep]
  simp only [List.cons_append]
  rw [readNote]
  have hlt : col % 128 < 128 := Nat.mod_lt _ (by norm_num)
  rw [if_neg (by omega)]
  simp only [unpack_vlc_pack_vlc]
  rw [Nat.mod_mod_of_dvd col dvd_rfl]

/-- Reading back a long-form note. -/
theorem readNote_long {n : Note} (hcol : n.column < 128)
    (hsp0 : 0 ≤ n.special) (hsp : n.special < 256)
    (hns : n.is_step = false) (rest : List Nat) :
    readNote (encodeNoteBytes n ++ rest) = .ok (n, rest) := by
  obtain ⟨st, en, col, sp⟩ := n
  rw [encodeNoteBytes, if_neg (by rw [hns]; simp)]
  simp only at hcol hsp0 hsp
  simp only [List.cons_append, List.append_assoc]
  rw [readNote, if_pos (by omega)]
  simp only [unpack_vlc_pack_vlc, List.singleton_append]
  have h1 : (col % 128 + 128) % 128 = col := by omega
  have h2 : Int.ofNat (sp.toNat % 256) = sp := by
    have h3 : sp.toNat % 256 = sp.toNat := by omega
    rw [h3]
    exact Int.toNat_of_nonneg hsp0
  rw [h1, h2, List.nil_append]

/-- Reading back any valid note. -/
theorem readNote_enc {n : Note} (hv : ValidNote n) (rest : List Nat) :
    readNote (encodeNoteBytes n ++ rest) = .ok (n, rest) := by
  obtain ⟨hcol, hkind⟩ := hv
  rcases hkind with ⟨heq, hsp⟩ | ⟨hne, hsp⟩
  · rcases hsp with h | h | h | h
    · obtain ⟨st, en, col, sp⟩ := n
      simp only at heq h
      subst heq h
      rw [readNote_short st col rest, Nat.mod_eq_of_lt hcol]
    · rw [readNote_long hcol (by omega) (by omega)
        (by simp [Note.is_step]; omega) rest]
    · rw [readNote_long hcol (by omega) (by omega)
        (by simp [Note.is_step]; omega) rest]
    · rw [readNote_long hcol (by omega) (by omega)
        (by simp [Note.is_step]; omega) rest]
  · rcases hsp with h | h <;>
      rw [readNote_long hcol (by omega) (by omega)
        (by simp [Note.is_step]; omega) rest]

/-- The note-count loop decodes an encoded list of valid notes. -/
theorem notesLoop_enc (ns : List Note) (hv : ∀ n ∈ ns, ValidNote n)
    (acc : List Note) (rest : List Nat) :
    notesLoop ns.length ((ns.map encodeNoteBytes).flatten ++ rest) acc
      = .ok (acc ++ ns, rest) := by
  induction ns generalizing acc with
  | nil => simp [notesLoop]
  | cons n ms ih =>
    simp only [List.map_cons, List.flatten_cons, List.length_cons, List.append_assoc]
    rw [notesLoop, readNote_enc (hv n (by simp))]
    simp only [ih (fun m hm => hv m (by simp [hm])) (acc ++ [n])]
    simp

/-! ## Truncation lemmas -/

/-- A 4-byte read from a shorter buffer fails as `truncated`. -/
theorem read32_short {d : List Nat} (h : d.length < 4) :
    read32 d = .error .truncated := by
  rcases d with _ | ⟨b0, _ | ⟨b1, _ | ⟨b2, _ | ⟨b3, r⟩⟩⟩⟩
  · rfl
  · rfl
  · rfl
  · rfl
  · simp only [List.length_cons] at h
    omega

/-- An 8-byte read from a shorter buffer fails as `truncated`. -/
theorem read64_short {d : List Nat} (h : d.length < 8) :
    read64 d = .error .truncated := by
  rcases d with _ | ⟨b0, _ | ⟨b1, _ | ⟨b2, _ | ⟨b3, _ | ⟨b4, _ | ⟨b5,
    _ | ⟨b6, _ | ⟨b7, r⟩⟩⟩⟩⟩⟩⟩⟩
  all_goals first
  | rfl
  | (simp only [List.length_cons] at h; omega)

/-- Each `(tick, value)` pair encodes to exactly twelve bytes. -/
theorem pairsBytes_length (c : List (Nat × Nat)) :
    ((c.map fun it => pack32 it.1 ++ pack64 it.2).flatten).length
      = 12 * c.length := by
  induction c with
  | nil => rfl
  | cons p ps ih =>
    simp only [List.map_cons, List.flatten_cons, List.length_append, ih,
      List.length_cons]
    simp only [pack32, pack64, List.length_append, List.length_cons,
      List.length_nil]
    ring

/-- Cutting the buffer inside a block's pair data fails the item loop as
`truncated` (valid types only; the type check happens after each pair
read, so with a valid type every failure is the read's). -/
theorem tempoItems_take {ty : Nat} (hty : ty = 0 ∨ ty = 1)
    (chunk : List (Nat × Nat))
    (hw : ∀ p ∈ chunk, p.1 < 4294967296 ∧ p.2 < 18446744073709551616) :
    ∀ j, j < 12 * chunk.length → ∀ bpms stops,
      tempoItems chunk.length ty
          (((chunk.map fun it => pack32 it.1 ++ pack64 it.2).flatten).take j)
          bpms stops
        = .error .truncated := by
  induction chunk with
  | nil => intro j hj; simp at hj
  | cons p ps ih =>
    intro j hj bpms stops
    obtain ⟨hp1, hp2⟩ := hw p (by simp)
    simp only [List.map_cons, List.flatten_cons, List.length_cons]
    by_cases h4 : j < 4
    · rw [tempoItems,
        read32_short (lt_of_le_of_lt (List.length_take_le _ _) h4)]
    · by_cases h12 : j < 12
      · rw [List.append_assoc, List.take_append_eq_append_take,
          List.take_of_length_le (show (pack32 p.1).length ≤ j by
            simp [pack32]; omega)]
        rw [tempoItems, read32_pack32 hp1]
        simp only [read64_short (lt_of_le_of_lt (List.length_take_le _ _)
          (show j - (pack32 p.1).length < 8 by simp [pack32]; omega))]
      · rw [List.take_append_eq_append_take,
          List.take_of_length_le (show (pack32 p.1 ++ pack64 p.2).length ≤ j by
            simp [pack32, pack64]; omega),
          List.append_assoc]
        rw [tempoItems, read32_pack32 hp1]
        simp only [read64_pack64 hp2]
        have hL : (pack32 p.1 ++ pack64 p.2).length = 12 := by
          simp [pack32, pack64]
        rw [hL]
        rcases hty with rfl | rfl
        · rw [if_pos rfl]
          exact ih (fun q hq => hw q (by simp [hq])) (j - 12)
            (by simp only [List.length_cons] at hj ⊢; omega) _ _
        · rw [if_neg (by omega), if_pos rfl]
          exact ih (fun q hq => hw q (by simp [hq])) (j - 12)
            (by simp only [List.length_cons] at hj ⊢; omega) _ _

/-- Cutting the buffer anywhere strictly inside a well-formed block
sequence (including before the terminator byte) fails the block loop as
`truncated`. -/
theorem tempoBlocks_take (blocks : List (Nat × List (Nat × Nat)))
    (hwf : ∀ bl ∈ blocks, WfBlock bl) :
    ∀ k, k < (tempoBlocksBytes blocks ++ [0]).length → ∀ bpms stops,
      tempoBlocks ((tempoBlocksBytes blocks ++ [0]).take k) bpms stops
        = .error .truncated := by
  induction blocks with
  | nil =>
    intro k hk bpms stops
    simp only [tempoBlocksBytes, List.map_nil, List.flatten_nil,
      List.nil_append, List.length_singleton] at hk
    have hk0 : k = 0 := by omega
    subst hk0
    rw [List.take_zero]
    exact tempoBlocks_nil _ _
  | cons bl bs ih =>
    intro k hk bpms stops
    obtain ⟨hty, hne, h254, hw⟩ := hwf bl (by simp)
    obtain ⟨ty, c⟩ := bl
    simp only at hty hne h254 hw
    have hPL := pairsBytes_length c
    have hcnt : c.length % 256 = c.length := Nat.mod_eq_of_lt (by omega)
    have hcne : c.length % 256 ≠ 0 := by
      have := List.length_pos.mpr hne
      omega
    have hbytes : tempoBlocksBytes ((ty, c) :: bs) ++ [0]
        = c.length % 256 :: ty ::
            (((c.map fun it => pack32 it.1 ++ pack64 it.2).flatten)
              ++ (tempoBlocksBytes bs ++ [0])) := by
      simp [tempoBlocksBytes, pack_tempo_block, List.append_assoc]
    rw [hbytes] at hk ⊢
    simp only [List.length_cons, List.length_append, hPL] at hk
    match k with
    | 0 =>
      rw [List.take_zero]
      exact tempoBlocks_nil _ _
    | 1 =>
      rw [List.take_succ_cons, List.take_zero]
      exact tempoBlocks_one hcne _ _
    | Nat.succ (Nat.succ k) =>
      rw [List.take_succ_cons, List.take_succ_cons]
      by_cases hk12 : k < 12 * c.length
      · refine tempoBlocks_cons_err hcne ?_
        rw [hcnt, List.take_append_of_le_length (by rw [hPL]; omega)]
        exact tempoItems_take hty c hw k hk12 bpms stops
      · rw [List.take_append_eq_append_take,
          List.take_of_length_le (by rw [hPL]; omega)]
        rw [tempoBlocks_cons_ok hcne
          (by rw [hcnt]; exact tempoItems_enc hty c hw _ bpms stops)]
        rw [hPL]
        exact ih (fun b hb => hwf b (by simp [hb])) (k - 12 * c.length)
          (by simp only [List.length_append, List.length_singleton, List.length_cons,
                List.length_nil] at hk ⊢; omega) _ _

/-- The tempo payload is a well-formed block sequence plus terminator. -/
theorem tempoPayload_blocks (b s : List (Nat × Nat)) :
    tempoPayload b s
      = tempoBlocksBytes ((chunk254 (sortByTick b)).map (fun c => (0, c))
          ++ (chunk254 (sortByTick s)).map (fun c => (1, c))) ++ [0] := by
  rw [tempoPayload, tempoBlocksBytes]
  simp [List.map_map, List.flatten_append, Function.comp_def, List.append_assoc]

/-- Well-formedness of the encoder-produced blocks. -/
theorem tempoPayload_blocks_wf {b s : List (Nat × Nat)}
    (hb : ∀ p ∈ b, p.1 < 4294967296 ∧ p.2 < 18446744073709551616)
    (hs : ∀ p ∈ s, p.1 < 4294967296 ∧ p.2 < 18446744073709551616) :
    ∀ bl ∈ (chunk254 (sortByTick b)).map (fun c => (0, c))
        ++ (chunk254 (sortByTick s)).map (fun c => (1, c)), WfBlock bl := by
  intro bl hbl
  rcases List.mem_append.mp hbl with h | h
  · obtain ⟨c, hc, rfl⟩ := List.mem_map.mp h
    obtain ⟨h1, h2, h3⟩ := chunk254_wf hb c hc
    exact ⟨Or.inl rfl, h1, h2, h3⟩
  · obtain ⟨c, hc, rfl⟩ := List.mem_map.mp h
    obtain ⟨h1, h2, h3⟩ := chunk254_wf hs c hc
    exact ⟨Or.inr rfl, h1, h2, h3⟩

/-- Cutting the buffer strictly inside one valid note's record fails the
note read as `truncated`. -/
theorem readNote_take {n : Note} (hv : ValidNote n) :
    ∀ j, j < (encodeNoteBytes n).length →
      readNote ((encodeNoteBytes n).take j) = .error .truncated := by
  intro j hj
  obtain ⟨hcol, hkind⟩ := hv
  by_cases hstep : n.is_step = true
  · rw [encodeNoteBytes, if_pos hstep] at hj ⊢
    match j with
    | 0 => rw [List.take_zero]; rfl
    | Nat.succ j =>
      rw [List.take_succ_cons, readNote,
        if_neg (by have := Nat.mod_lt n.column (show 0 < 128 by norm_num); omega)]
      simp only [List.length_cons] at hj
      rw [unpack_vlc_take (show j < (pack_vlc n.start).length by omega)]
  · rw [encodeNoteBytes, if_neg hstep] at hj ⊢
    match j with
    | 0 => rw [List.take_zero]; rfl
    | Nat.succ j =>
      rw [List.take_succ_cons, readNote, if_pos (by omega)]
      simp only [List.length_cons, List.length_append,
        List.length_singleton, List.length_nil] at hj
      by_cases hA : j < (pack_vlc n.start).length
      · rw [List.append_assoc,
          List.take_append_of_le_length (by omega), unpack_vlc_take hA]
      · rw [List.append_assoc, List.take_append_eq_append_take,
          List.take_of_length_le (by omega), unpack_vlc_pack_vlc]
        simp only []
        set j' := j - (pack_vlc n.start).length with hj'
        have hj'B : j' ≤ (pack_vlc n.end_).length := by omega
        by_cases hB : j' < (pack_vlc n.end_).length
        · rw [List.take_append_of_le_length (by omega), unpack_vlc_take hB]
        · have hEq : j' = (pack_vlc n.end_).length := by omega
          rw [List.take_append_eq_append_take,
            List.take_of_length_le (by omega), hEq, Nat.sub_self,
            List.take_zero, List.append_nil]
          have := unpack_vlc_pack_vlc n.end_ []
          rw [List.append_nil] at this
          rw [this]

/-- Cutting the buffer strictly inside the concatenated note records
fails the counting loop as `truncated`. -/
theorem notesLoop_take (ns : List Note) (hv : ∀ n ∈ ns, ValidNote n) :
    ∀ j, j < ((ns.map encodeNoteBytes).flatten).length → ∀ acc,
      notesLoop ns.length (((ns.map encodeNoteBytes).flatten).take j) acc
        = .error .truncated := by
  induction ns with
  | nil => intro j hj; simp at hj
  | cons n ms ih =>
    intro j hj acc
    have hvn := hv n (by simp)
    simp only [List.map_cons, List.flatten_cons, List.length_cons,
      List.length_append] at hj ⊢
    by_cases hn : j < (encodeNoteBytes n).length
    · rw [List.take_append_of_le_length (by omega), notesLoop,
        readNote_take hvn j hn]
    · rw [List.take_append_eq_append_take,
        List.take_of_length_le (by omega), notesLoop,
        readNote_enc hvn]
      simp only []
      exact ih (fun m hm => hv m (by simp [hm]))
        (j - (encodeNoteBytes n).length) (by omega) _

/-! ## Error-shape lemmas -/

/-- A failed 4-byte read only fails as `truncated`. -/
theorem read32_err {d : List Nat} {e : DecodeErr} (h : read32 d = .error e) :
    e = .truncated := by
  rcases d with _ | ⟨b0, _ | ⟨b1, _ | ⟨b2, _ | ⟨b3, r⟩⟩⟩⟩
  all_goals first
  | exact (Except.error.inj h).symm
  | exact absurd h (by simp [read32])

/-- A failed 8-byte read only fails as `truncated`. -/
theorem read64_err {d : List Nat} {e : DecodeErr} (h : read64 d = .error e) :
    e = .truncated := by
  rcases d with _ | ⟨b0, _ | ⟨b1, _ | ⟨b2, _ | ⟨b3, _ | ⟨b4, _ | ⟨b5,
    _ | ⟨b6, _ | ⟨b7, r⟩⟩⟩⟩⟩⟩⟩⟩
  all_goals first
  | exact (Except.error.inj h).symm
  | exact absurd h (by simp [read64])

/-- The tempo item loop only fails as `truncated` or `unknownBlockType`. -/
theorem tempoItems_err {c ty : Nat} {d : List Nat} {bpms stops e}
    (h : tempoItems c ty d bpms stops = .error e) :
    e = .truncated ∨ e = .unknownBlockType := by
  induction c generalizing d bpms stops with
  | zero => simp [tempoItems] at h
  | succ c ih =>
    rw [tempoItems] at h
    split at h
    · rename_i e' heq
      simp only [Except.error.injEq] at h
      subst h
      exact Or.inl (read32_err heq)
    · rename_i tick d1 heq
      split at h
      · rename_i e' heq2
        simp only [Except.error.injEq] at h
        subst h
        exact Or.inl (read64_err heq2)
      · rename_i value d2 heq2
        split at h
        · exact ih h
        · split at h
          · exact ih h
          · simp only [Except.error.injEq] at h
            subst h
            exact Or.inr rfl

/-- The tempo block loop only fails as `truncated` or `unknownBlockType`. -/
theorem tempoBlocks_err {d : List Nat} {bpms stops : List (Nat × Nat)}
    {e : DecodeErr} (h : tempoBlocks d bpms stops = .error e) :
    e = .truncated ∨ e = .unknownBlockType := by
  induction d, bpms, stops using tempoBlocks.induct with
  | case1 bpms stops =>
    rw [tempoBlocks_nil] at h
    exact Or.inl (Except.error.inj h).symm
  | case2 bpms stops rest =>
    rw [tempoBlocks_zero] at h
    simp at h
  | case3 bpms stops count hc =>
    rw [tempoBlocks_one hc] at h
    exact Or.inl (Except.error.inj h).symm
  | case4 bpms stops count hc ty rest e' heq =>
    rw [tempoBlocks_cons_err hc heq] at h
    rw [← Except.error.inj h]
    exact tempoItems_err heq
  | case5 bpms stops count hc ty rest b' s' r3 heq ih =>
    rw [tempoBlocks_cons_ok hc heq] at h
    exact ih h

/-- A failed varint read only fails as `truncated`. -/
theorem unpack_vlc_err {d : List Nat} {e : DecodeErr}
    (h : unpack_vlc d = .error e) : e = .truncated := by
  induction d with
  | nil =>
    simp only [unpack_vlc, Except.error.injEq] at h
    exact h.symm
  | cons b r ih =>
    rw [unpack_vlc] at h
    split at h
    · simp at h
    · split at h
      · simp at h
      · rename_i e' heq
        simp only [Except.error.injEq] at h
        subst h
        exact ih heq

/-- A failed note read only fails as `truncated`. -/
theorem readNote_err {d : List Nat} {e : DecodeErr}
    (h : readNote d = .error e) : e = .truncated := by
  rw [readNote.eq_def] at h
  split at h
  · simp only [Except.error.injEq] at h
    exact h.symm
  · split at h
    · split at h
      · rename_i e' heq
        simp only [Except.error.injEq] at h
        subst h
        exact unpack_vlc_err heq
      · split at h
        · rename_i e' heq
          simp only [Except.error.injEq] at h
          subst h
          exact unpack_vlc_err heq
        · split at h
          · simp only [Except.error.injEq] at h
            exact h.symm
          · simp at h
    · split at h
      · rename_i e' heq
        simp only [Except.error.injEq] at h
        subst h
        exact unpack_vlc_err heq
      · simp at h

/-- A failed note loop only fails as `truncated`. -/
theorem notesLoop_err {c : Nat} {d : List Nat} {acc : List Note}
    {e : DecodeErr} (h : notesLoop c d acc = .error e) : e = .truncated := by
  induction c generalizing d acc with
  | zero => simp [notesLoop] at h
  | succ c ih =>
    rw [notesLoop] at h
    split at h
    · rename_i e' heq
      simp only [Except.error.injEq] at h
      subst h
      exact readNote_err heq
    · exact ih h

/-- Every error of the ASCII85 character loop is a `malformedText` whose
message is one of the CPython messages — never `Invalid data`. -/
theorem a85dloop_err {i curr dec : List Nat} {e : DecodeErr}
    (h : a85dloop i curr dec = .error e) :
    ∃ m, e = .malformedText m ∧ m ≠ "Invalid data" := by
  induction i generalizing curr dec with
  | nil => simp [a85dloop] at h
  | cons x rest ih =>
    rw [a85dloop] at h
    split at h
    · split at h
      · split at h
        · exact ih h
        · exact ⟨_, (Except.error.inj h).symm, by decide⟩
      · exact ih h
    · split at h
      · split at h
        · exact ih h
        · exact ⟨_, (Except.error.inj h).symm, by decide⟩
      · split at h
        · exact ih h
        · refine ⟨_, (Except.error.inj h).symm, fun hm => ?_⟩
          have hlen := congrArg String.length hm
          rw [String.length_push] at hlen
          have h1 : ("Non-Ascii85 digit found: ").length = 25 := rfl
          have h2 : ("Invalid data").length = 12 := rfl
          omega

/-- Every error of `a85decode` is a `malformedText` with a CPython
message — never `Invalid data`. -/
theorem a85decode_err {t : List Nat} {e : DecodeErr}
    (h : a85decode t = .error e) :
    ∃ m, e = .malformedText m ∧ m ≠ "Invalid data" := by
  rw [a85decode] at h
  split at h
  · split at h
    · simp at h
    · rename_i e' heq
      simp only [Except.error.injEq] at h
      subst h
      exact a85dloop_err heq
  · exact ⟨_, (Except.error.inj h).symm, by decide⟩

/-- Shape of any tempo decode failure. -/
theorem clipboard_data_to_tempo_err {t : List Nat} {e : DecodeErr}
    (h : clipboard_data_to_tempo t = .error e) :
    e = .magicMismatch ∨ (∃ m, e = .malformedText m ∧ m ≠ "Invalid data")
      ∨ e = .truncated ∨ e = .unknownBlockType := by
  rw [clipboard_data_to_tempo] at h
  split at h
  · split at h
    · rename_i e' heq
      simp only [Except.error.injEq] at h
      subst h
      exact Or.inr (Or.inl (a85decode_err heq))
    · rcases tempoBlocks_err h with h' | h'
      · exact Or.inr (Or.inr (Or.inl h'))
      · exact Or.inr (Or.inr (Or.inr h'))
  · simp only [Except.error.injEq] at h
    exact Or.inl h.symm

/-- Shape of any notes decode failure: never `unknownBlockType`. -/
theorem clipboard_data_to_notes_err {t : List Nat} {e : DecodeErr}
    (h : clipboard_data_to_notes t = .error e) :
    e = .magicMismatch ∨ (∃ m, e = .malformedText m ∧ m ≠ "Invalid data")
      ∨ e = .truncated := by
  rw [clipboard_data_to_notes] at h
  split at h
  · split at h
    · rename_i e' heq
      simp only [Except.error.injEq] at h
      subst h
      exact Or.inr (Or.inl (a85decode_err heq))
    · rename_i bytes heq
      split at h
      · simp only [Except.error.injEq] at h
        exact Or.inr (Or.inr h.symm)
      · split at h
        · rename_i e' heq2
          simp only [Except.error.injEq] at h
          subst h
          exact Or.inr (Or.inr (unpack_vlc_err heq2))
        · split at h
          · rename_i e' heq3
            simp only [Except.error.injEq] at h
            subst h
            exact Or.inr (Or.inr (notesLoop_err heq3))
          · simp at h
  · simp only [Except.error.injEq] at h
    exact Or.inl h.symm

/-- Skipping a run of well-formed blocks: decoding continues on the
suffix with some accumulators. -/
theorem tempoBlocks_skip (blocks : List (Nat × List (Nat × Nat)))
    (hwf : ∀ bl ∈ blocks, WfBlock bl) (suffix : List Nat)
    (bpms stops : List (Nat × Nat)) :
    ∃ b' s', tempoBlocks (tempoBlocksBytes blocks ++ suffix) bpms stops
      = tempoBlocks suffix b' s' := by
  induction blocks generalizing bpms stops with
  | nil => exact ⟨bpms, stops, by simp [tempoBlocksBytes]⟩
  | cons bl bs ih =>
    obtain ⟨hty, hne, h254, hw⟩ := hwf bl (by simp)
    obtain ⟨ty, c⟩ := bl
    simp only at hty hne h254 hw
    have hcnt : c.length % 256 = c.length := Nat.mod_eq_of_lt (by omega)
    have hcne : c.length % 256 ≠ 0 := by
      have := List.length_pos.mpr hne
      omega
    have hbytes : tempoBlocksBytes ((ty, c) :: bs) ++ suffix
        = c.length % 256 :: ty ::
            (((c.map fun it => pack32 it.1 ++ pack64 it.2).flatten)
              ++ (tempoBlocksBytes bs ++ suffix)) := by
      simp [tempoBlocksBytes, pack_tempo_block, List.append_assoc]
    rw [hbytes, tempoBlocks_cons_ok hcne
      (by rw [hcnt]; exact tempoItems_enc hty c hw _ bpms stops)]
    exact ih (fun b hb => hwf b (by simp [hb])) _ _

/-- A 4-byte read from a long enough buffer succeeds and consumes four
bytes. -/
theorem read32_long {d : List Nat} (h : 4 ≤ d.length) :
    ∃ v, read32 d = .ok (v, d.drop 4) := by
  rcases d with _ | ⟨b0, _ | ⟨b1, _ | ⟨b2, _ | ⟨b3, r⟩⟩⟩⟩ <;>
    simp only [List.length_cons, List.length_nil] at h
  · omega
  · omega
  · omega
  · omega
  · exact ⟨_, rfl⟩

/-- An 8-byte read from a long enough buffer succeeds and consumes eight
bytes. -/
theorem read64_long {d : List Nat} (h : 8 ≤ d.length) :
    ∃ v, read64 d = .ok (v, d.drop 8) := by
  rcases d with _ | ⟨b0, _ | ⟨b1, _ | ⟨b2, _ | ⟨b3, _ | ⟨b4, _ | ⟨b5,
    _ | ⟨b6, _ | ⟨b7, r⟩⟩⟩⟩⟩⟩⟩⟩ <;>
    simp only [List.length_cons, List.length_nil] at h
  all_goals first
  | omega
  | exact ⟨_, rfl⟩

/-- Bytes of a packed tempo block are bytes whenever the tag is. -/
theorem pack_tempo_block_lt {ty : Nat} (hty : ty < 256)
    (c : List (Nat × Nat)) : ∀ y ∈ pack_tempo_block ty c, y < 256 := by
  intro y hy
  rw [pack_tempo_block] at hy
  simp only [List.mem_cons] at hy
  rcases hy with rfl | rfl | hy
  · exact Nat.mod_lt _ (by norm_num)
  · exact hty
  · obtain ⟨bs, hbs, hybs⟩ := List.mem_flatten.mp hy
    obtain ⟨p, hp, rfl⟩ := List.mem_map.mp hbs
    rcases List.mem_append.mp hybs with h | h
    · simp only [pack32, List.mem_cons, List.not_mem_nil, or_false] at h
      rcases h with rfl | rfl | rfl | rfl <;> omega
    · simp only [pack64, List.mem_cons, List.not_mem_nil, or_false] at h
      rcases h with rfl | rfl | rfl | rfl | rfl | rfl | rfl | rfl <;> omega

/-- Bytes of a well-formed block sequence are bytes. -/
theorem tempoBlocksBytes_lt {blocks : List (Nat × List (Nat × Nat))}
    (hwf : ∀ bl ∈ blocks, WfBlock bl) :
    ∀ x ∈ tempoBlocksBytes blocks, x < 256 := by
  intro x hx
  rw [tempoBlocksBytes] at hx
  obtain ⟨bs, hbs, hxbs⟩ := List.mem_flatten.mp hx
  obtain ⟨bl, hbl, rfl⟩ := List.mem_map.mp hbs
  obtain ⟨hty, -, -, -⟩ := hwf bl hbl
  exact pack_tempo_block_lt (by omega) bl.2 x hxbs

/-! ## Claim theorems -/

/-- C1: for every list of data-model notes (column in 0–127 and one of
the six kinds; this covers the empty list, all-step lists, all-duration
lists, mixed lists, and columns 0 and 127), decoding the encoding
returns exactly the input list — same length, order, and fields. -/
theorem c1_notes_roundtrip (ns : List Note) (h : ∀ n ∈ ns, ValidNote n) :
    clipboard_data_to_notes (notes_to_clipboard_data ns) = .ok ns := by
  rw [notes_to_clipboard_data, clipboard_data_to_notes,
    if_pos (isPrefixOf_append_self _ _), List.drop_left,
    a85decode_a85encode (notesPayload_bytes ns), notesPayload]
  simp only [unpack_vlc_pack_vlc]
  have hloop := notesLoop_enc ns h [] []
  rw [List.append_nil] at hloop
  simp only [hloop, List.nil_append]

theorem c1_witness :
    clipboard_data_to_notes (notes_to_clipboard_data
      [⟨0, 0, 0, -1⟩, ⟨0, 24, 3, 0⟩, ⟨12, 24, 1, 2⟩, ⟨5, 5, 127, 1⟩,
       ⟨6, 6, 0, 3⟩, ⟨7, 7, 2, 4⟩])
      = .ok [⟨0, 0, 0, -1⟩, ⟨0, 24, 3, 0⟩, ⟨12, 24, 1, 2⟩, ⟨5, 5, 127, 1⟩,
             ⟨6, 6, 0, 3⟩, ⟨7, 7, 2, 4⟩] :=
  c1_notes_roundtrip _ (by decide)

/-- C2: for every list of tempo points and stop points whose ticks fit
in 32 bits and whose values are 64-bit patterns (this covers empty,
single-element, and 253/254/255/508-entry lists), decoding the encoding
returns the two lists sorted by tick; the sort is sorted
(pairwise-ascending ticks) and stable (for every tick value the
subsequence with that tick is preserved exactly). -/
theorem c2_tempo_roundtrip (b s : List (Nat × Nat))
    (hb : ∀ p ∈ b, p.1 < 4294967296 ∧ p.2 < 18446744073709551616)
    (hs : ∀ p ∈ s, p.1 < 4294967296 ∧ p.2 < 18446744073709551616) :
    clipboard_data_to_tempo (tempo_to_clipboard_data b s)
        = .ok (sortByTick b, sortByTick s)
      ∧ ((sortByTick b).Pairwise (fun p q => p.1 ≤ q.1)
        ∧ (sortByTick s).Pairwise (fun p q => p.1 ≤ q.1))
      ∧ ∀ t : Nat,
          (sortByTick b).filter (fun p => p.1 == t) = b.filter (fun p => p.1 == t)
          ∧ (sortByTick s).filter (fun p => p.1 == t) = s.filter (fun p => p.1 == t) := by
  refine ⟨?_, ⟨sortByTick_pairwise b, sortByTick_pairwise s⟩,
    fun t => ⟨sortByTick_filter b t, sortByTick_filter s t⟩⟩
  rw [tempo_to_clipboard_data, clipboard_data_to_tempo,
    if_pos (isPrefixOf_append_self _ _), List.drop_left,
    a85decode_a85encode (tempoPayload_bytes b s)]
  simp only [tempoBlocks_tempoPayload hb hs]

theorem c2_witness :
    clipboard_data_to_tempo (tempo_to_clipboard_data
        [(48, 2), (0, 1), (48, 7)] [(24, 3)])
      = .ok (sortByTick [(48, 2), (0, 1), (48, 7)], sortByTick [(24, 3)])
    ∧ ((sortByTick [(48, 2), (0, 1), (48, 7)]).Pairwise (fun p q => p.1 ≤ q.1)
      ∧ (sortByTick [(24, 3)]).Pairwise (fun p q => p.1 ≤ q.1))
    ∧ ∀ t : Nat,
        (sortByTick [(48, 2), (0, 1), (48, 7)]).filter (fun p => p.1 == t)
          = [(48, 2), (0, 1), (48, 7)].filter (fun p => p.1 == t)
        ∧ (sortByTick [(24, 3)]).filter (fun p => p.1 == t)
          = [(24, 3)].filter (fun p => p.1 == t) :=
  c2_tempo_roundtrip _ _ (by decide) (by decide)

/-- C3: under the data model, the encoder emits the one-byte-control
short form (control byte = column, top bit 0, then `varint(start)`)
exactly for point-like notes with `special = −1`, and every other valid
note in long form: control byte `column + 128` (= `column | 0x80`), then
`varint(start)`, `varint(end)`, and one raw byte holding `special`. -/
theorem c3_note_forms (n : Note) (h : ValidNote n) :
    (encodeNoteBytes n = n.column :: pack_vlc n.start
      ↔ (n.start = n.end_ ∧ n.special = -1))
    ∧ (¬(n.start = n.end_ ∧ n.special = -1) →
        encodeNoteBytes n
          = (n.column + 128) ::
              (pack_vlc n.start ++ pack_vlc n.end_ ++ [n.special.toNat])) := by
  obtain ⟨hcol, hkind⟩ := h
  have hstep_iff : n.is_step = true ↔ (n.start = n.end_ ∧ n.special = -1) := by
    rw [Note.is_step]
    simp only [Bool.and_eq_true, decide_eq_true_eq]
    constructor
    · rintro ⟨hle, hse⟩
      refine ⟨hse, ?_⟩
      rcases hkind with ⟨-, hsp | hsp | hsp | hsp⟩ | ⟨hne, -⟩
      · exact hsp
      · omega
      · omega
      · omega
      · exact absurd hse hne
    · rintro ⟨hse, hsp⟩
      exact ⟨by rw [hsp]; norm_num, hse⟩
  have hspNat : n.special.toNat < 256 := by
    rcases hkind with ⟨-, hsp | hsp | hsp | hsp⟩ | ⟨-, hsp | hsp⟩ <;>
      simp [hsp]
  constructor
  · constructor
    · intro henc
      by_contra hne
      have hns : n.is_step = false := by
        rw [← Bool.not_eq_true, hstep_iff]
        exact hne
      rw [encodeNoteBytes, if_neg (by rw [hns]; simp)] at henc
      simp only [List.cons.injEq] at henc
      omega
    · intro hse
      rw [encodeNoteBytes, if_pos (hstep_iff.mpr hse), Nat.mod_eq_of_lt hcol]
  · intro hne
    have hns : n.is_step = false := by
      rw [← Bool.not_eq_true, hstep_iff]
      exact hne
    rw [encodeNoteBytes, if_neg (by rw [hns]; simp), Nat.mod_eq_of_lt hcol,
      Nat.mod_eq_of_lt hspNat]

theorem c3_witness :
    ((encodeNoteBytes ⟨0, 24, 3, 0⟩ = 3 :: pack_vlc 0
        ↔ ((0 : Nat) = 24 ∧ (0 : Int) = -1))
      ∧ (¬((0 : Nat) = 24 ∧ (0 : Int) = -1) →
          encodeNoteBytes ⟨0, 24, 3, 0⟩
            = (3 + 128) :: (pack_vlc 0 ++ pack_vlc 24 ++ [(0 : Int).toNat])))
    ∧ ((encodeNoteBytes ⟨9, 9, 5, -1⟩ = 5 :: pack_vlc 9
        ↔ ((9 : Nat) = 9 ∧ (-1 : Int) = -1))
      ∧ (¬((9 : Nat) = 9 ∧ (-1 : Int) = -1) →
          encodeNoteBytes ⟨9, 9, 5, -1⟩
            = (5 + 128) :: (pack_vlc 9 ++ pack_vlc 9 ++ [(-1 : Int).toNat]))) :=
  ⟨c3_note_forms ⟨0, 24, 3, 0⟩ (by decide), c3_note_forms ⟨9, 9, 5, -1⟩ (by decide)⟩

/-- C4: the varint codec round-trips every non-negative integer (hence
in particular 0, 127, 128, 16383, 16384), with any trailing bytes left
untouched; moreover the emitted bytes are exactly the 7-bit little-endian
groups of the value, each byte carrying the group in its low bits and
the continuation flag (128) in bit 7 — set on all but the last byte. -/
theorem c4_varint_roundtrip (v : Nat) (rest : List Nat) :
    unpack_vlc (pack_vlc v ++ rest) = .ok (v, rest)
    ∧ ∀ i, i < (pack_vlc v).length →
        (pack_vlc v)[i]?
          = some (v / 128 ^ i % 128
              + (if i + 1 < (pack_vlc v).length then 128 else 0)) := by
  refine ⟨unpack_vlc_pack_vlc v rest, ?_⟩
  clear rest
  induction v using pack_vlc.induct with
  | case1 v h =>
    intro i hi
    rw [pack_vlc, dif_pos h] at hi ⊢
    simp only [List.length_singleton] at hi
    interval_cases i
    simp
  | case2 v h ih =>
    intro i hi
    rw [pack_vlc, dif_neg h] at hi ⊢
    cases i with
    | zero =>
      rw [List.getElem?_cons_zero]
      simp only [pow_zero, Nat.div_one, List.length_cons]
      rw [if_pos (by
        have := List.length_pos.mpr (pack_vlc_ne_nil (v := v / 128))
        omega)]
    | succ i =>
      simp only [List.length_cons, Nat.add_lt_add_iff_right] at hi
      rw [List.getElem?_cons_succ, ih i hi]
      have hdiv : v / 128 / 128 ^ i = v / 128 ^ (i + 1) := by
        rw [Nat.div_div_eq_div_mul, ← pow_succ']
      rw [hdiv]
      simp only [List.length_cons, Nat.add_lt_add_iff_right]

/-- C5: the tempo encoder's byte payload is exactly the spec's layout —
the sorted bpms chunked into consecutive blocks of at most 254 entries
with type tag 0, then the sorted stops with type tag 1, each block being
`count:u8` (in 1–254), `type:u8` and `count` `(tick:u32-LE, value:f64-LE)`
pairs, followed by a single terminating `count = 0` byte. -/
theorem c5_payload_layout (b s : List (Nat × Nat)) :
    tempoPayload b s = specTempoLayout b s
    ∧ (∀ c ∈ chunk254 (sortByTick b), 1 ≤ c.length ∧ c.length ≤ 254)
    ∧ (∀ c ∈ chunk254 (sortByTick s), 1 ≤ c.length ∧ c.length ≤ 254)
    ∧ (chunk254 (sortByTick b)).flatten = sortByTick b
    ∧ (chunk254 (sortByTick s)).flatten = sortByTick s := by
  have hmap : ∀ (ty : Nat) (l : List (Nat × Nat)),
      (chunk254 l).map (pack_tempo_block ty) = (chunk254 l).map (specBlockBytes ty) := by
    intro ty l
    apply List.map_congr_left
    intro c hc
    have h2 := (chunk254_mem hc).2
    rw [pack_tempo_block, specBlockBytes, Nat.mod_eq_of_lt (by omega)]
  have hcount : ∀ l : List (Nat × Nat), ∀ c ∈ chunk254 l,
      1 ≤ c.length ∧ c.length ≤ 254 := by
    intro l c hc
    obtain ⟨h1, h2⟩ := chunk254_mem hc
    exact ⟨List.length_pos.mpr h1, h2⟩
  exact ⟨by rw [tempoPayload, specTempoLayout, hmap, hmap],
    hcount _, hcount _, chunk254_flatten _, chunk254_flatten _⟩

/-- C7: any input text that does not start with the expected magic
prefix makes the respective decoder fail with the magic-mismatch error
(`ValueError('Invalid data')`) without returning a result. -/
theorem c7_magic_mismatch (t : List Nat) :
    (¬tempoMagic.isPrefixOf t = true →
      clipboard_data_to_tempo t = .error .magicMismatch)
    ∧ (¬notesMagic.isPrefixOf t = true →
      clipboard_data_to_notes t = .error .magicMismatch) := by
  constructor
  · intro h
    rw [clipboard_data_to_tempo, if_neg h]
  · intro h
    rw [clipboard_data_to_notes, if_neg h]

theorem c7_witness :
    clipboard_data_to_tempo (strCodes "nonsense") = .error .magicMismatch
    ∧ clipboard_data_to_notes (strCodes "nonsense") = .error .magicMismatch :=
  ⟨(c7_magic_mismatch _).1 (by decide), (c7_magic_mismatch _).2 (by decide)⟩

/-- C10: a step note (`special = −1`, `start = end`) with column ≥ 128
does not make the encoder fail: the control byte is the column masked to
its low seven bits, so decoding the encoding returns the note with its
column reduced modulo 128 and all other fields unchanged. -/
theorem c10_column_masking (n : Note) (hsp : n.special = -1)
    (heq : n.start = n.end_) (hcol : 128 ≤ n.column) :
    clipboard_data_to_notes (notes_to_clipboard_data [n])
      = .ok [⟨n.start, n.end_, n.column % 128, -1⟩]
    ∧ encodeNoteBytes n = n.column % 128 :: pack_vlc n.start := by
  obtain ⟨st, en, col, sp⟩ := n
  simp only at hsp heq hcol ⊢
  subst hsp
  subst heq
  have hstep : Note.is_step ⟨st, st, col, -1⟩ = true := by simp [Note.is_step]
  refine ⟨?_, by rw [encodeNoteBytes, if_pos hstep]⟩
  rw [notes_to_clipboard_data, clipboard_data_to_notes,
    if_pos (isPrefixOf_append_self _ _), List.drop_left,
    a85decode_a85encode (notesPayload_bytes _), notesPayload]
  simp only [unpack_vlc_pack_vlc, List.map_cons, List.map_nil,
    List.flatten_cons, List.flatten_nil, List.append_nil, List.length_singleton]
  have hrn := readNote_short st col []
  rw [List.append_nil] at hrn
  rw [notesLoop]
  simp only [hrn, notesLoop, List.nil_append]

/-- C6: cutting the byte buffer mid-structure (any strict prefix of a
well-formed payload, behind a valid magic prefix) makes both decoders
fail with the truncation error — the bare `ValueError()` of the bounds
check — with no partial result; and a varint consisting only of
continuation bytes does not loop forever: it fails the same way when the
read runs past the end of the buffer. -/
theorem c6_truncation :
    (∀ b s : List (Nat × Nat),
      (∀ p ∈ b, p.1 < 4294967296 ∧ p.2 < 18446744073709551616) →
      (∀ p ∈ s, p.1 < 4294967296 ∧ p.2 < 18446744073709551616) →
      ∀ k, k < (tempoPayload b s).length →
        clipboard_data_to_tempo
            (tempoMagic ++ a85encode ((tempoPayload b s).take k))
          = .error .truncated)
    ∧ (∀ ns : List Note, (∀ n ∈ ns, ValidNote n) →
      ∀ k, k < (notesPayload ns).length →
        clipboard_data_to_notes
            (notesMagic ++ a85encode ((notesPayload ns).take k))
          = .error .truncated)
    ∧ (∀ l : List Nat, (∀ x ∈ l, 128 ≤ x) →
        unpack_vlc l = .error .truncated) := by
  refine ⟨?_, ?_, fun l h => unpack_vlc_allCont h⟩
  · intro b s hb hs k hk
    rw [clipboard_data_to_tempo, if_pos (isPrefixOf_append_self _ _),
      List.drop_left]
    simp only [a85decode_a85encode
      (fun x hx => tempoPayload_bytes b s x (List.mem_of_mem_take hx))]
    rw [tempoPayload_blocks] at hk ⊢
    exact tempoBlocks_take _ (tempoPayload_blocks_wf hb hs) k hk [] []
  · intro ns hv k hk
    rw [clipboard_data_to_notes, if_pos (isPrefixOf_append_self _ _),
      List.drop_left]
    simp only [a85decode_a85encode
      (fun x hx => notesPayload_bytes ns x (List.mem_of_mem_take hx))]
    rw [notesPayload] at hk ⊢
    simp only [List.length_cons, List.length_append] at hk
    match k with
    | 0 =>
      rw [List.take_zero]
    | Nat.succ k =>
      rw [List.take_succ_cons]
      by_cases hc : k < (pack_vlc ns.length).length
      · rw [List.take_append_of_le_length (by omega)]
        simp only [unpack_vlc_take hc]
      · rw [List.take_append_eq_append_take,
          List.take_of_length_le (by omega)]
        simp only [unpack_vlc_pack_vlc]
        simp only [notesLoop_take ns hv (k - (pack_vlc ns.length).length)
          (by omega) []]

theorem c6_witness :
    clipboard_data_to_tempo
        (tempoMagic ++ a85encode ((tempoPayload [(0, 1)] []).take 0))
      = .error .truncated
    ∧ clipboard_data_to_notes
        (notesMagic ++ a85encode ((notesPayload [⟨0, 0, 0, -1⟩]).take 0))
      = .error .truncated
    ∧ unpack_vlc [255, 255, 255] = .error .truncated := by
  obtain ⟨h1, h2, h3⟩ := c6_truncation
  exact ⟨h1 [(0, 1)] [] (by decide) (by decide) 0 (by rw [tempoPayload]; simp),
    h2 [⟨0, 0, 0, -1⟩] (by decide) 0 (by rw [notesPayload]; simp),
    h3 _ (by decide)⟩

theorem c10_witness :
    clipboard_data_to_notes (notes_to_clipboard_data [⟨3, 3, 130, -1⟩])
      = .ok [⟨3, 3, 130 % 128, -1⟩]
    ∧ encodeNoteBytes ⟨3, 3, 130, -1⟩ = 130 % 128 :: pack_vlc 3 :=
  c10_column_masking ⟨3, 3, 130, -1⟩ rfl rfl (by norm_num)

/-- C8 counterexample: the tempo payload `[1, 2]` contains a block
header with nonzero count 1 and type byte 2 (outside {0, 1}), yet the
decoder fails with the truncation error, not the unknown-block-type
error: the type byte is only checked after a full 12-byte pair has been
read, and here the buffer ends first. -/
theorem c8_counterexample :
    clipboard_data_to_tempo (tempoMagic ++ a85encode [1, 2]) = .error .truncated
    ∧ DecodeErr.truncated ≠ DecodeErr.unknownBlockType := by
  refine ⟨?_, by decide⟩
  rw [clipboard_data_to_tempo, if_pos (isPrefixOf_append_self _ _),
    List.drop_left]
  simp only [a85decode_a85encode
    (show ∀ b ∈ ([1, 2] : List Nat), b < 256 by decide)]
  exact tempoBlocks_cons_err (by decide) rfl

/-- C8 (amended): a tempo payload consisting of well-formed blocks
followed by a block whose count is nonzero and whose type byte is
outside {0, 1}, with at least the first 12-byte `(tick, value)` pair of
that block present in the buffer, makes the tempo decoder fail with the
unknown-block-type error rather than return a result.  (When the buffer
ends before that first pair, the failure is `truncated` instead, because
the type check happens only after each pair read.) -/
theorem c8_unknown_block_type (blocks : List (Nat × List (Nat × Nat)))
    (hwf : ∀ bl ∈ blocks, WfBlock bl) (c ty : Nat) (rest : List Nat)
    (hc : c ≠ 0) (hcb : c < 256) (hty0 : ty ≠ 0) (hty1 : ty ≠ 1)
    (htyb : ty < 256) (hrest : 12 ≤ rest.length)
    (hrb : ∀ x ∈ rest, x < 256) :
    clipboard_data_to_tempo
        (tempoMagic ++ a85encode (tempoBlocksBytes blocks ++ c :: ty :: rest))
      = .error .unknownBlockType := by
  have hall : ∀ x ∈ tempoBlocksBytes blocks ++ c :: ty :: rest, x < 256 := by
    intro x hx
    rcases List.mem_append.mp hx with hx | hx
    · exact tempoBlocksBytes_lt hwf x hx
    · simp only [List.mem_cons] at hx
      rcases hx with rfl | rfl | hx
      · exact hcb
      · exact htyb
      · exact hrb x hx
  rw [clipboard_data_to_tempo, if_pos (isPrefixOf_append_self _ _),
    List.drop_left]
  simp only [a85decode_a85encode hall]
  obtain ⟨b', s', hskip⟩ := tempoBlocks_skip blocks hwf (c :: ty :: rest) [] []
  rw [hskip]
  refine tempoBlocks_cons_err hc ?_
  obtain ⟨c', rfl⟩ : ∃ c', c = c' + 1 := ⟨c - 1, by omega⟩
  obtain ⟨v1, h1⟩ := read32_long (show 4 ≤ rest.length by omega)
  obtain ⟨v2, h2⟩ := read64_long
    (show 8 ≤ (rest.drop 4).length by rw [List.length_drop]; omega)
  rw [tempoItems, h1]
  simp only [h2]
  rw [if_neg hty0, if_neg hty1]

theorem c8_witness :
    clipboard_data_to_tempo
        (tempoMagic ++ a85encode
          (tempoBlocksBytes [] ++ 1 :: 2 :: List.replicate 12 0))
      = .error .unknownBlockType :=
  c8_unknown_block_type [] (by simp) 1 2 (List.replicate 12 0) (by decide)
    (by decide) (by decide) (by decide) (by decide) (by decide) (by decide)

/-- C9 counterexample: a truncated payload and an unknown-block-type
payload fail with different error kinds, yet the Python-observable
failure — a `ValueError` and its message — is identical (both are bare
`ValueError()`), so the reported failure does not carry enough detail to
classify which of the kinds occurred. -/
theorem c9_counterexample :
    clipboard_data_to_tempo (tempoMagic ++ a85encode [1, 0])
      = .error .truncated
    ∧ clipboard_data_to_tempo
        (tempoMagic ++ a85encode (1 :: 2 :: List.replicate 12 0))
      = .error .unknownBlockType
    ∧ DecodeErr.truncated ≠ DecodeErr.unknownBlockType
    ∧ DecodeErr.truncated.pyMessage = DecodeErr.unknownBlockType.pyMessage := by
  refine ⟨?_, ?_, by decide, rfl⟩
  · rw [clipboard_data_to_tempo, if_pos (isPrefixOf_append_self _ _),
      List.drop_left]
    simp only [a85decode_a85encode
      (show ∀ b ∈ ([1, 0] : List Nat), b < 256 by decide)]
    exact tempoBlocks_cons_err (by decide) rfl
  · rw [clipboard_data_to_tempo, if_pos (isPrefixOf_append_self _ _),
      List.drop_left]
    simp only [a85decode_a85encode
      (show ∀ b ∈ (1 :: 2 :: List.replicate 12 0 : List Nat), b < 256 by decide)]
    exact tempoBlocks_cons_err (by decide) rfl

/-- C9 (amended): every decode failure is a single terminal failure of
one of the four kinds, and the caller-visible `ValueError` message
distinguishes magic mismatches (message `Invalid data`) and malformed
text encodings (various nonempty messages) from the rest; but truncation
and unknown-block-type failures both surface as a bare `ValueError`
(message `none`) and are therefore not classifiable apart by the caller;
the notes decoder never raises the unknown-block-type kind at all. -/
theorem c9_error_observables (t : List Nat) (e : DecodeErr)
    (hdec : clipboard_data_to_tempo t = .error e
      ∨ clipboard_data_to_notes t = .error e) :
    (e = .magicMismatch ∨ e = .truncated ∨ e = .unknownBlockType
      ∨ ∃ m, e = .malformedText m)
    ∧ (e = .magicMismatch ↔ e.pyMessage = some "Invalid data")
    ∧ ((e = .truncated ∨ e = .unknownBlockType) ↔ e.pyMessage = none)
    ∧ (clipboard_data_to_notes t = .error e → e ≠ .unknownBlockType) := by
  refine ⟨by cases e <;> simp, ⟨?_, ?_⟩, ⟨?_, ?_⟩, ?_⟩
  · rintro rfl
    rfl
  · intro hmsg
    rcases hdec with h | h
    · rcases clipboard_data_to_tempo_err h with rfl | ⟨m, rfl, hm⟩ | rfl | rfl
      · rfl
      · exact absurd (Option.some.inj hmsg) hm
      · simp [DecodeErr.pyMessage] at hmsg
      · simp [DecodeErr.pyMessage] at hmsg
    · rcases clipboard_data_to_notes_err h with rfl | ⟨m, rfl, hm⟩ | rfl
      · rfl
      · exact absurd (Option.some.inj hmsg) hm
      · simp [DecodeErr.pyMessage] at hmsg
  · rintro (rfl | rfl) <;> rfl
  · intro hmsg
    cases e with
    | magicMismatch => simp [DecodeErr.pyMessage] at hmsg
    | truncated => exact Or.inl rfl
    | unknownBlockType => exact Or.inr rfl
    | malformedText m => simp [DecodeErr.pyMessage] at hmsg
  · intro h
    rcases clipboard_data_to_notes_err h with rfl | ⟨m, rfl, -⟩ | rfl <;> simp

theorem c9_witness :
    (DecodeErr.truncated = .magicMismatch ∨ DecodeErr.truncated = .truncated
      ∨ DecodeErr.truncated = .unknownBlockType
      ∨ ∃ m, DecodeErr.truncated = .malformedText m)
    ∧ (DecodeErr.truncated = .magicMismatch
        ↔ DecodeErr.truncated.pyMessage = some "Invalid data")
    ∧ ((DecodeErr.truncated = .truncated
        ∨ DecodeErr.truncated = .unknownBlockType)
        ↔ DecodeErr.truncated.pyMessage = none)
    ∧ (clipboard_data_to_notes (notesMagic ++ a85encode []) = .error .truncated
        → DecodeErr.truncated ≠ .unknownBlockType) :=
  c9_error_observables (notesMagic ++ a85encode []) .truncated
    (Or.inr (by
      rw [clipboard_data_to_notes, if_pos (isPrefixOf_append_self _ _),
        List.drop_left]
      simp only [a85decode_a85encode
        (show ∀ b ∈ ([] : List Nat), b < 256 by decide)]))

end ArrowCopyPaste
